import Mathlib

/-!
Verification of the MiniMark minification pipeline.

The pipeline is a composition of four text-rewrite stages driven by a
strategy set.  Texts are modelled as lists of characters.  Each regular
expression substitution of the implementation is embedded as a left-to-right
scanner built from a generic combinator that performs leftmost,
non-overlapping match replacement, exactly as the standard regex substitution
does for the concrete patterns used by the implementation (none of which can
backtrack, as each is a sequence of maximal character-class runs separated by
distinct literals).

External collaborators of the implementation (the sentence tokenizer, the
word tokenizer and the lexical-relation lookup) are not part of the
repository; the pipeline stages take them as parameters, and concrete model
instances built from the specification are provided for evaluation.
-/

namespace MiniMark

open List

/-! ## Character classes -/

/-- Whitespace characters, as the regex class and the string strip method see them. -/
def pyIsSpace (c : Char) : Bool :=
  c == ' ' || c == '\t' || c == '\n' || c == '\r' || c == '\x0b' || c == '\x0c'

/-- Alphanumeric characters, modelling the isalnum test on single characters. -/
def pyIsAlnum (c : Char) : Bool :=
  c.isAlpha || c.isDigit

/-- Word characters of the regex word class. -/
def isWordChar (c : Char) : Bool :=
  pyIsAlnum c || c == '_'

/-- Characters a horizontal-rule line may consist of. -/
def isHRChar (c : Char) : Bool :=
  c == '-' || c == '*' || c == '_'

/-- The backquote character that delimits code spans. -/
def btick : Char := Char.ofNat 96

/-- The apostrophe character. -/
def apos : Char := Char.ofNat 39

/-- Negated single-character test. -/
def isNot (a : Char) (c : Char) : Bool := !(c == a)

/-- True when the final element of the list is a newline. -/
def lastIsNL (l : List Char) : Bool := l.getLast? == some '\n'

/-- A word is a nonempty all-alphanumeric token, modelling the isalnum string method. -/
def isAlnumStr (w : List Char) : Bool := !w.isEmpty && w.all pyIsAlnum

/-- Case folding of a token, modelling the lower string method on ASCII text. -/
def lowerStr (w : List Char) : List Char := w.map Char.toLower

/-! ## Generic leftmost-match substitution scanner

A matcher receives the scanner state and the current suffix of the text; on a
match it yields the replacement, the number of additionally consumed
characters (total consumed is that number plus one) and the state for the
position following the match.  On failure the scanner emits one character and
advances, updating the state from that character; this is exactly how the
regex engine resumes scanning after a failed match attempt, and the state
models the multiline line-start anchor or the word-boundary context. -/

/-- Generic scanner performing leftmost non-overlapping match replacement. -/
def scanSt {σ : Type} (m : σ → List Char → Option (List Char × Nat × σ))
    (upd : σ → Char → σ) (s : σ) : List Char → List Char
  | [] => []
  | c :: cs =>
    match m s (c :: cs) with
    | some (rep, k, s2) => rep ++ scanSt m upd s2 (cs.drop k)
    | none => c :: scanSt m upd (upd s c) cs
termination_by l => l.length
decreasing_by
  · simp only [List.length_drop, List.length_cons]; omega
  · simp only [List.length_cons]; omega

/-- If every replacement is a sublist of the consumed span, the scanner output
is a sublist of its input. -/
theorem scanSt_sublist {σ : Type} (m : σ → List Char → Option (List Char × Nat × σ))
    (upd : σ → Char → σ)
    (hm : ∀ s l rep k s2, m s l = some (rep, k, s2) → rep <+ l.take (k + 1)) :
    ∀ s l, scanSt m upd s l <+ l := by
  intro s l
  induction s, l using scanSt.induct m upd with
  | case1 s => simp [scanSt]
  | case2 s c cs rep k s2 hfire ih =>
    rw [scanSt, hfire]
    have h1 : rep <+ (c :: cs).take (k + 1) := hm _ _ _ _ _ hfire
    have h2 : (c :: cs).take (k + 1) ++ cs.drop k = c :: cs := by
      have : cs.drop k = (c :: cs).drop (k + 1) := rfl
      rw [this, List.take_append_drop]
    calc rep ++ scanSt m upd s2 (cs.drop k)
        <+ (c :: cs).take (k + 1) ++ cs.drop k := h1.append ih
      _ = c :: cs := h2
  | case3 s c cs hfire ih =>
    rw [scanSt, hfire]
    exact ih.cons₂ c

/-- If every replacement is no longer than the consumed span and the consumed
span fits in the suffix, the scanner never lengthens the text. -/
theorem scanSt_length_le {σ : Type} (m : σ → List Char → Option (List Char × Nat × σ))
    (upd : σ → Char → σ)
    (hm : ∀ s l rep k s2, m s l = some (rep, k, s2) →
      rep.length ≤ k + 1 ∧ k + 1 ≤ l.length) :
    ∀ s l, (scanSt m upd s l).length ≤ l.length := by
  intro s l
  induction s, l using scanSt.induct m upd with
  | case1 s => simp [scanSt]
  | case2 s c cs rep k s2 hfire ih =>
    rw [scanSt, hfire]
    have h1 := hm _ _ _ _ _ hfire
    simp only [List.length_append, List.length_cons, List.length_drop] at *
    omega
  | case3 s c cs hfire ih =>
    rw [scanSt, hfire]
    simp only [List.length_cons]
    omega

/-- Characters of the scanner output come from the input or from the
replacement side condition. -/
theorem scanSt_mem {σ : Type} (m : σ → List Char → Option (List Char × Nat × σ))
    (upd : σ → Char → σ) (P : Char → Prop)
    (hm : ∀ s l rep k s2, m s l = some (rep, k, s2) → ∀ c ∈ rep, c ∈ l ∨ P c) :
    ∀ s l x, x ∈ scanSt m upd s l → x ∈ l ∨ P x := by
  intro s l
  induction s, l using scanSt.induct m upd with
  | case1 s => intro x hx; simp [scanSt] at hx
  | case2 s c cs rep k s2 hfire ih =>
    intro x hx
    rw [scanSt, hfire] at hx
    rcases List.mem_append.mp hx with h | h
    · exact hm _ _ _ _ _ hfire x h
    · rcases ih x h with h2 | h2
      · exact Or.inl (List.mem_cons_of_mem c ((List.drop_sublist k cs).subset h2))
      · exact Or.inr h2
  | case3 s c cs hfire ih =>
    intro x hx
    rw [scanSt, hfire] at hx
    rcases List.mem_cons.mp hx with h | h
    · exact Or.inl (h ▸ List.mem_cons_self c cs)
    · rcases ih x h with h2 | h2
      · exact Or.inl (List.mem_cons_of_mem c h2)
      · exact Or.inr h2

/-- The scanner is the identity when the matcher fails at every position it
reaches; positions are described as splits of the input and the state reached
at a split is the fold of the update function over the preceding prefix. -/
theorem scanSt_id {σ : Type} (m : σ → List Char → Option (List Char × Nat × σ))
    (upd : σ → Char → σ) :
    ∀ (s : σ) (l : List Char),
      (∀ a b, a ++ b = l → b ≠ [] → m (a.foldl upd s) b = none) →
      scanSt m upd s l = l := by
  intro s l
  induction s, l using scanSt.induct m upd with
  | case1 s => intro _; simp [scanSt]
  | case2 s c cs rep k s2 hfire ih =>
    intro h
    have := h [] (c :: cs) rfl (by simp)
    simp only [List.foldl_nil] at this
    rw [this] at hfire
    cases hfire
  | case3 s c cs hfire ih =>
    intro h
    rw [scanSt, hfire]
    have h2 : ∀ a b, a ++ b = cs → b ≠ [] → m (a.foldl upd (upd s c)) b = none := by
      intro a b hab hb
      have := h (c :: a) b (by simpa using hab) hb
      simpa using this
    rw [ih h2]

/-! ## The markdown-syntax stripper

One matcher per substitution of the stage, in the order the stage applies
them.  Stateless matchers carry a unit state; the three line-anchored
substitutions carry a boolean that is true exactly at a line start, and the
state update sets it after every emitted newline. -/

/-- Line-start tracking for the multiline anchors. -/
def updNL (_ : Bool) (c : Char) : Bool := c == '\n'

/-- Unit state update for stateless matchers. -/
def updU (s : Unit) (_ : Char) : Unit := s

/-- Matcher for a double-star emphasis span: two stars, a nonempty run free
of stars, two stars; the content run is kept. -/
def mBold (_ : Unit) (l : List Char) : Option (List Char × Nat × Unit) :=
  match l with
  | '*' :: '*' :: rest =>
    if rest.takeWhile (isNot '*') ≠ [] ∧ (rest.dropWhile (isNot '*')).take 2 = ['*', '*'] then
      some (rest.takeWhile (isNot '*'), (rest.takeWhile (isNot '*')).length + 3, ())
    else none
  | _ => none

/-- Matcher for a single-star emphasis span. -/
def mItalic (_ : Unit) (l : List Char) : Option (List Char × Nat × Unit) :=
  match l with
  | '*' :: rest =>
    if rest.takeWhile (isNot '*') ≠ [] ∧ (rest.dropWhile (isNot '*')).take 1 = ['*'] then
      some (rest.takeWhile (isNot '*'), (rest.takeWhile (isNot '*')).length + 1, ())
    else none
  | _ => none

/-- Matcher for a double-underscore emphasis span. -/
def mBoldU (_ : Unit) (l : List Char) : Option (List Char × Nat × Unit) :=
  match l with
  | '_' :: '_' :: rest =>
    if rest.takeWhile (isNot '_') ≠ [] ∧ (rest.dropWhile (isNot '_')).take 2 = ['_', '_'] then
      some (rest.takeWhile (isNot '_'), (rest.takeWhile (isNot '_')).length + 3, ())
    else none
  | _ => none

/-- Matcher for a single-underscore emphasis span. -/
def mItalicU (_ : Unit) (l : List Char) : Option (List Char × Nat × Unit) :=
  match l with
  | '_' :: rest =>
    if rest.takeWhile (isNot '_') ≠ [] ∧ (rest.dropWhile (isNot '_')).take 1 = ['_'] then
      some (rest.takeWhile (isNot '_'), (rest.takeWhile (isNot '_')).length + 1, ())
    else none
  | _ => none

/-- Matcher for an ATX heading prefix: at a line start, one to six hash marks
followed by at least one whitespace character; the whole prefix is removed and
the whitespace run is consumed greedily. -/
def mHeaders (s : Bool) (l : List Char) : Option (List Char × Nat × Bool) :=
  if s then
    if 1 ≤ (l.takeWhile (fun c => c == '#')).length ∧
        (l.takeWhile (fun c => c == '#')).length ≤ 6 ∧
        (l.dropWhile (fun c => c == '#')).takeWhile pyIsSpace ≠ [] then
      some ([], (l.takeWhile (fun c => c == '#')).length +
        ((l.dropWhile (fun c => c == '#')).takeWhile pyIsSpace).length - 1,
        lastIsNL ((l.dropWhile (fun c => c == '#')).takeWhile pyIsSpace))
    else none
  else none

/-- Matcher for an opening code fence with optional language tag and its
newline; the whole line is removed. -/
def mFence1 (_ : Unit) (l : List Char) : Option (List Char × Nat × Unit) :=
  match l with
  | c1 :: c2 :: c3 :: rest =>
    if c1 = btick ∧ c2 = btick ∧ c3 = btick ∧
        (rest.dropWhile isWordChar).take 1 = ['\n'] then
      some ([], 3 + (rest.takeWhile isWordChar).length, ())
    else none
  | _ => none

/-- Matcher for a bare triple backquote; it is removed. -/
def mFence2 (_ : Unit) (l : List Char) : Option (List Char × Nat × Unit) :=
  match l with
  | c1 :: c2 :: c3 :: _ =>
    if c1 = btick ∧ c2 = btick ∧ c3 = btick then some ([], 2, ()) else none
  | _ => none

/-- Matcher for an inline code span: a backquote pair around a nonempty run
free of backquotes; the content is kept. -/
def mInlineCode (_ : Unit) (l : List Char) : Option (List Char × Nat × Unit) :=
  match l with
  | c0 :: rest =>
    if c0 = btick ∧ rest.takeWhile (isNot btick) ≠ [] ∧
        (rest.dropWhile (isNot btick)).take 1 = [btick] then
      some (rest.takeWhile (isNot btick), (rest.takeWhile (isNot btick)).length + 1, ())
    else none
  | _ => none

/-- Matcher for an inline link: bracketed nonempty label, parenthesised
nonempty target; the label is kept, the target discarded. -/
def mLink (_ : Unit) (l : List Char) : Option (List Char × Nat × Unit) :=
  match l with
  | '[' :: rest =>
    match rest.dropWhile (isNot ']') with
    | ']' :: '(' :: r2 =>
      if rest.takeWhile (isNot ']') ≠ [] ∧ r2.takeWhile (isNot ')') ≠ [] ∧
          (r2.dropWhile (isNot ')')).take 1 = [')'] then
        some (rest.takeWhile (isNot ']'),
          (rest.takeWhile (isNot ']')).length + (r2.takeWhile (isNot ')')).length + 3, ())
      else none
    | _ => none
  | _ => none

/-- Matcher for an unordered list marker: at a line start, optional
whitespace, a dash, star or plus, then at least one whitespace character; the
whole marker is removed. -/
def mUList (s : Bool) (l : List Char) : Option (List Char × Nat × Bool) :=
  if s then
    match l.dropWhile pyIsSpace with
    | m0 :: r2 =>
      if (m0 = '-' ∨ m0 = '*' ∨ m0 = '+') ∧ r2.takeWhile pyIsSpace ≠ [] then
        some ([], (l.takeWhile pyIsSpace).length + (r2.takeWhile pyIsSpace).length,
          lastIsNL (r2.takeWhile pyIsSpace))
      else none
    | [] => none
  else none

/-- Matcher for an ordered list marker: at a line start, optional whitespace,
a nonempty digit run, a period, then at least one whitespace character. -/
def mOList (s : Bool) (l : List Char) : Option (List Char × Nat × Bool) :=
  if s then
    match (l.dropWhile pyIsSpace).dropWhile Char.isDigit with
    | '.' :: r2 =>
      if ((l.dropWhile pyIsSpace).takeWhile Char.isDigit) ≠ [] ∧
          r2.takeWhile pyIsSpace ≠ [] then
        some ([], (l.takeWhile pyIsSpace).length +
          ((l.dropWhile pyIsSpace).takeWhile Char.isDigit).length +
          (r2.takeWhile pyIsSpace).length,
          lastIsNL (r2.takeWhile pyIsSpace))
      else none
    | _ => none
  else none

/-- Matcher for a horizontal rule: at a line start, a run of three or more
rule characters filling the rest of the line; the run is removed and the
newline kept. -/
def mHR (s : Bool) (l : List Char) : Option (List Char × Nat × Bool) :=
  if s then
    if 3 ≤ (l.takeWhile isHRChar).length ∧
        ((l.dropWhile isHRChar).take 1 = ['\n'] ∨ l.dropWhile isHRChar = []) then
      some ([], (l.takeWhile isHRChar).length - 1, false)
    else none
  else none

/-- Matcher collapsing a run of three or more newlines to exactly two. -/
def mNL3 (_ : Unit) (l : List Char) : Option (List Char × Nat × Unit) :=
  match l with
  | '\n' :: '\n' :: '\n' :: _ =>
    some (['\n', '\n'], (l.takeWhile (fun c => c == '\n')).length - 1, ())
  | _ => none

/-- A takeWhile run is a sublist of any long-enough take of the same list. -/
theorem takeWhile_sublist_take (p : Char → Bool) (l : List Char) (n : Nat)
    (h : (l.takeWhile p).length ≤ n) : l.takeWhile p <+ l.take n :=
  (List.prefix_take_iff.mpr ⟨List.takeWhile_prefix p, h⟩).sublist

/-- The double-star matcher keeps only content of the consumed span. -/
theorem mBold_consumed : ∀ s l rep k s2, mBold s l = some (rep, k, s2) →
    rep <+ l.take (k + 1) := by
  intro s l rep k s2 h
  unfold mBold at h
  split at h
  next rest =>
    split at h
    next hc =>
      simp only [Option.some.injEq, Prod.mk.injEq] at h
      obtain ⟨h1, h2, -⟩ := h
      subst h1; subst h2
      simp only [List.take_succ_cons]
      exact ((takeWhile_sublist_take _ rest _ (by omega)).cons _).cons _
    next => cases h
  next => cases h

/-- The single-star matcher keeps only content of the consumed span. -/
theorem mItalic_consumed : ∀ s l rep k s2, mItalic s l = some (rep, k, s2) →
    rep <+ l.take (k + 1) := by
  intro s l rep k s2 h
  unfold mItalic at h
  split at h
  next rest =>
    split at h
    next hc =>
      simp only [Option.some.injEq, Prod.mk.injEq] at h
      obtain ⟨h1, h2, -⟩ := h
      subst h1; subst h2
      simp only [List.take_succ_cons]
      exact (takeWhile_sublist_take _ rest _ (by omega)).cons _
    next => cases h
  next => cases h

/-- The double-underscore matcher keeps only content of the consumed span. -/
theorem mBoldU_consumed : ∀ s l rep k s2, mBoldU s l = some (rep, k, s2) →
    rep <+ l.take (k + 1) := by
  intro s l rep k s2 h
  unfold mBoldU at h
  split at h
  next rest =>
    split at h
    next hc =>
      simp only [Option.some.injEq, Prod.mk.injEq] at h
      obtain ⟨h1, h2, -⟩ := h
      subst h1; subst h2
      simp only [List.take_succ_cons]
      exact ((takeWhile_sublist_take _ rest _ (by omega)).cons _).cons _
    next => cases h
  next => cases h

/-- The single-underscore matcher keeps only content of the consumed span. -/
theorem mItalicU_consumed : ∀ s l rep k s2, mItalicU s l = some (rep, k, s2) →
    rep <+ l.take (k + 1) := by
  intro s l rep k s2 h
  unfold mItalicU at h
  split at h
  next rest =>
    split at h
    next hc =>
      simp only [Option.some.injEq, Prod.mk.injEq] at h
      obtain ⟨h1, h2, -⟩ := h
      subst h1; subst h2
      simp only [List.take_succ_cons]
      exact (takeWhile_sublist_take _ rest _ (by omega)).cons _
    next => cases h
  next => cases h

/-- The heading matcher removes the whole consumed span. -/
theorem mHeaders_consumed : ∀ s l rep k s2, mHeaders s l = some (rep, k, s2) →
    rep <+ l.take (k + 1) := by
  intro s l rep k s2 h
  unfold mHeaders at h
  split at h
  · split at h
    · simp only [Option.some.injEq, Prod.mk.injEq] at h
      obtain ⟨h1, -, -⟩ := h
      subst h1
      exact List.nil_sublist _
    · cases h
  · cases h

/-- The opening-fence matcher removes the whole consumed span. -/
theorem mFence1_consumed : ∀ s l rep k s2, mFence1 s l = some (rep, k, s2) →
    rep <+ l.take (k + 1) := by
  intro s l rep k s2 h
  unfold mFence1 at h
  split at h
  next =>
    split at h
    next =>
      simp only [Option.some.injEq, Prod.mk.injEq] at h
      obtain ⟨h1, -, -⟩ := h
      subst h1
      exact List.nil_sublist _
    next => cases h
  next => cases h

/-- The bare-fence matcher removes the whole consumed span. -/
theorem mFence2_consumed : ∀ s l rep k s2, mFence2 s l = some (rep, k, s2) →
    rep <+ l.take (k + 1) := by
  intro s l rep k s2 h
  unfold mFence2 at h
  split at h
  next =>
    split at h
    next =>
      simp only [Option.some.injEq, Prod.mk.injEq] at h
      obtain ⟨h1, -, -⟩ := h
      subst h1
      exact List.nil_sublist _
    next => cases h
  next => cases h

/-- The inline-code matcher keeps only content of the consumed span. -/
theorem mInlineCode_consumed : ∀ s l rep k s2, mInlineCode s l = some (rep, k, s2) →
    rep <+ l.take (k + 1) := by
  intro s l rep k s2 h
  unfold mInlineCode at h
  split at h
  next c0 rest =>
    split at h
    next hc =>
      simp only [Option.some.injEq, Prod.mk.injEq] at h
      obtain ⟨h1, h2, -⟩ := h
      subst h1; subst h2
      simp only [List.take_succ_cons]
      exact (takeWhile_sublist_take _ rest _ (by omega)).cons _
    next => cases h
  next => cases h

/-- The link matcher keeps only the label of the consumed span. -/
theorem mLink_consumed : ∀ s l rep k s2, mLink s l = some (rep, k, s2) →
    rep <+ l.take (k + 1) := by
  intro s l rep k s2 h
  unfold mLink at h
  split at h
  next rest =>
    split at h
    next r2 =>
      split at h
      next hc =>
        simp only [Option.some.injEq, Prod.mk.injEq] at h
        obtain ⟨h1, h2, -⟩ := h
        subst h1; subst h2
        simp only [List.take_succ_cons]
        exact (takeWhile_sublist_take _ rest _ (by omega)).cons _
      next => cases h
    next => cases h
  next => cases h

/-- The unordered-list matcher removes the whole consumed span. -/
theorem mUList_consumed : ∀ s l rep k s2, mUList s l = some (rep, k, s2) →
    rep <+ l.take (k + 1) := by
  intro s l rep k s2 h
  unfold mUList at h
  split at h
  · split at h
    next =>
      split at h
      next =>
        simp only [Option.some.injEq, Prod.mk.injEq] at h
        obtain ⟨h1, -, -⟩ := h
        subst h1
        exact List.nil_sublist _
      next => cases h
    next => cases h
  · cases h

/-- The ordered-list matcher removes the whole consumed span. -/
theorem mOList_consumed : ∀ s l rep k s2, mOList s l = some (rep, k, s2) →
    rep <+ l.take (k + 1) := by
  intro s l rep k s2 h
  unfold mOList at h
  split at h
  · split at h
    next =>
      split at h
      next =>
        simp only [Option.some.injEq, Prod.mk.injEq] at h
        obtain ⟨h1, -, -⟩ := h
        subst h1
        exact List.nil_sublist _
      next => cases h
    next => cases h
  · cases h

/-- The horizontal-rule matcher removes the whole consumed span. -/
theorem mHR_consumed : ∀ s l rep k s2, mHR s l = some (rep, k, s2) →
    rep <+ l.take (k + 1) := by
  intro s l rep k s2 h
  unfold mHR at h
  split at h
  · split at h
    · simp only [Option.some.injEq, Prod.mk.injEq] at h
      obtain ⟨h1, -, -⟩ := h
      subst h1
      exact List.nil_sublist _
    · cases h
  · cases h

/-- The newline-collapsing matcher keeps two of the consumed newlines. -/
theorem mNL3_consumed : ∀ s l rep k s2, mNL3 s l = some (rep, k, s2) →
    rep <+ l.take (k + 1) := by
  intro s l rep k s2 h
  unfold mNL3 at h
  split at h
  next r =>
    simp only [Option.some.injEq, Prod.mk.injEq] at h
    obtain ⟨h1, h2, -⟩ := h
    subst h1
    have hrun : ('\n' :: '\n' :: '\n' :: r).takeWhile (fun c => c == '\n') =
        '\n' :: '\n' :: '\n' :: r.takeWhile (fun c => c == '\n') := by
      simp [List.takeWhile_cons]
    have hk : 2 ≤ k := by rw [← h2, hrun]; simp
    obtain ⟨k2, rfl⟩ : ∃ k2, k = k2 + 2 := ⟨k - 2, by omega⟩
    simp only [List.take_succ_cons]
    exact (List.nil_sublist _).cons₂ '\n' |>.cons₂ '\n'
  next => cases h

/-- Strip of leading and trailing whitespace, modelling the strip method. -/
def pyStrip (l : List Char) : List Char :=
  ((l.dropWhile pyIsSpace).reverse.dropWhile pyIsSpace).reverse

/-- The markdown-syntax stripping stage: the substitutions in implementation
order, then whitespace trimming. -/
def strip_markdown_syntax (t : List Char) : List Char :=
  pyStrip (scanSt mNL3 updU ()
    (scanSt mHR updNL true
      (scanSt mOList updNL true
        (scanSt mUList updNL true
          (scanSt mLink updU ()
            (scanSt mInlineCode updU ()
              (scanSt mFence2 updU ()
                (scanSt mFence1 updU ()
                  (scanSt mHeaders updNL true
                    (scanSt mItalicU updU ()
                      (scanSt mBoldU updU ()
                        (scanSt mItalic updU ()
                          (scanSt mBold updU () t)))))))))))))

/-- Stripping whitespace at both ends yields a sublist. -/
theorem pyStrip_sublist (l : List Char) : pyStrip l <+ l := by
  unfold pyStrip
  have h1 : (l.dropWhile pyIsSpace).reverse.dropWhile pyIsSpace <+
      (l.dropWhile pyIsSpace).reverse := List.dropWhile_sublist _
  have h2 := List.reverse_sublist.mpr h1
  simp only [List.reverse_reverse] at h2
  exact h2.trans (List.dropWhile_sublist _)

/-- The syntax-stripping stage output is a sublist of its input: it only ever
deletes characters. -/
theorem strip_sublist (t : List Char) :
    strip_markdown_syntax t <+ t := by
  unfold strip_markdown_syntax
  refine (pyStrip_sublist _).trans ?_
  refine (scanSt_sublist _ _ mNL3_consumed _ _).trans ?_
  refine (scanSt_sublist _ _ mHR_consumed _ _).trans ?_
  refine (scanSt_sublist _ _ mOList_consumed _ _).trans ?_
  refine (scanSt_sublist _ _ mUList_consumed _ _).trans ?_
  refine (scanSt_sublist _ _ mLink_consumed _ _).trans ?_
  refine (scanSt_sublist _ _ mInlineCode_consumed _ _).trans ?_
  refine (scanSt_sublist _ _ mFence2_consumed _ _).trans ?_
  refine (scanSt_sublist _ _ mFence1_consumed _ _).trans ?_
  refine (scanSt_sublist _ _ mHeaders_consumed _ _).trans ?_
  refine (scanSt_sublist _ _ mItalicU_consumed _ _).trans ?_
  refine (scanSt_sublist _ _ mBoldU_consumed _ _).trans ?_
  refine (scanSt_sublist _ _ mItalic_consumed _ _).trans ?_
  exact scanSt_sublist _ _ mBold_consumed _ _

/-- The syntax-stripping stage never lengthens the text. -/
theorem strip_length_le (t : List Char) :
    ( strip_markdown_syntax t).length ≤ t.length :=
  (strip_sublist t).length_le

/-! ## The filler simplifier

Each filler pattern is a case-insensitive alternation between word
boundaries.  All alternatives start and end with letters, so the leading
boundary amounts to the previous character not being a word character, and
the trailing boundary to the next one not being one.  The scanner state is
whether the previous character is a word character; after a removed match the
previous character is the final letter of the matched alternative. -/

/-- Case-insensitive literal match of a lowercase pattern against the front
of the text, returning the rest on success. -/
def matchCI : List Char → List Char → Option (List Char)
  | [], l => some l
  | _ :: _, [] => none
  | p :: ps, c :: cs => if c.toLower = p then matchCI ps cs else none

/-- Try the alternatives in order; an alternative succeeds when it matches
case-insensitively and the following character is not a word character.
Returns the match length. -/
def tryAlts (alts : List (List Char)) (l : List Char) : Option Nat :=
  match alts with
  | [] => none
  | a :: rest =>
    match matchCI a l with
    | some r =>
      if r = [] ∨ isWordChar (r.headD ' ') = false then some a.length
      else tryAlts rest l
    | none => tryAlts rest l

/-- Matcher removing one filler alternation occurrence at a word boundary. -/
def mAlts (alts : List (List Char)) (prevW : Bool) (l : List Char) :
    Option (List Char × Nat × Bool) :=
  if prevW then none
  else
    match tryAlts alts l with
    | some n => some ([], n - 1, true)
    | none => none

/-- Word-character tracking for the boundary state. -/
def updW (_ : Bool) (c : Char) : Bool := isWordChar c

/-- Matcher collapsing a whitespace run to a single space. -/
def mWsRun (_ : Unit) (l : List Char) : Option (List Char × Nat × Unit) :=
  match l with
  | c :: _ =>
    if pyIsSpace c then some ([' '], (l.takeWhile pyIsSpace).length - 1, ())
    else none
  | [] => none

/-- Matcher removing whitespace that precedes clause punctuation, keeping the
punctuation mark. -/
def mWsPunct (_ : Unit) (l : List Char) : Option (List Char × Nat × Unit) :=
  match l with
  | c :: _ =>
    if pyIsSpace c then
      match l.dropWhile pyIsSpace with
      | p :: _ =>
        if p = '.' ∨ p = ',' ∨ p = '!' ∨ p = '?' then
          some ([p], (l.takeWhile pyIsSpace).length, ())
        else none
      | [] => none
    else none
  | [] => none

/-- First filler pattern: discourse phrases. -/
def fillerAlts1 : List (List Char) :=
  [("in order to").toList, ("in my opinion").toList, ("i think").toList,
   ("i believe").toList, ("it seems").toList, ("as you know").toList]

/-- Second filler pattern: discourse adverbs. -/
def fillerAlts2 : List (List Char) :=
  [("basically").toList, ("actually").toList, ("literally").toList,
   ("honestly").toList, ("frankly").toList]

/-- Third filler pattern: intensifier adverbs. -/
def fillerAlts3 : List (List Char) :=
  [("very").toList, ("really").toList, ("quite").toList, ("rather").toList,
   ("somewhat").toList, ("fairly").toList]

/-- One filler-pattern pass over the text. -/
def subFiller (alts : List (List Char)) (t : List Char) : List Char :=
  scanSt (mAlts alts) updW false t

/-- The sentence-simplifying stage: the three filler patterns in order, then
whitespace collapsing, space-before-punctuation fixing, and trimming. -/
def simplify_sentences (t : List Char) : List Char :=
  pyStrip (scanSt mWsPunct updU ()
    (scanSt mWsRun updU ()
      (subFiller fillerAlts3 (subFiller fillerAlts2 (subFiller fillerAlts1 t)))))

/-- A successful case-insensitive match consumes exactly the pattern length. -/
theorem matchCI_length : ∀ a l r, matchCI a l = some r → a.length + r.length = l.length := by
  intro a
  induction a with
  | nil => intro l r h; simp [matchCI] at h; simp [h]
  | cons p ps ih =>
    intro l r h
    match l with
    | [] => simp [matchCI] at h
    | c :: cs =>
      unfold matchCI at h
      split at h
      · have := ih cs r h
        simp only [List.length_cons]
        omega
      · cases h

/-- A successful alternation try reports a length that is positive and within
the text, provided no alternative is empty. -/
theorem tryAlts_bounds : ∀ alts l n, (∀ a ∈ alts, a ≠ []) →
    tryAlts alts l = some n → 1 ≤ n ∧ n ≤ l.length := by
  intro alts
  induction alts with
  | nil => intro l n _ h; simp [tryAlts] at h
  | cons a rest ih =>
    intro l n halts h
    unfold tryAlts at h
    split at h
    next r hm =>
      split at h
      · simp only [Option.some.injEq] at h
        have hlen := matchCI_length a l r hm
        have hne : a ≠ [] := halts a (by simp)
        have : 1 ≤ a.length := by
          cases a with
          | nil => exact absurd rfl hne
          | cons _ _ => simp
        omega
      · exact ih l n (fun x hx => halts x (by simp [hx])) h
    next => exact ih l n (fun x hx => halts x (by simp [hx])) h

/-- The filler matcher removes its nonempty consumed span. -/
theorem mAlts_len (alts : List (List Char)) (halts : ∀ a ∈ alts, a ≠ []) :
    ∀ s l rep k s2, mAlts alts s l = some (rep, k, s2) →
      rep.length ≤ k + 1 ∧ k + 1 ≤ l.length := by
  intro s l rep k s2 h
  unfold mAlts at h
  split at h
  · cases h
  · split at h
    next n hn =>
      simp only [Option.some.injEq, Prod.mk.injEq] at h
      obtain ⟨h1, h2, -⟩ := h
      subst h1
      have := tryAlts_bounds alts l n halts hn
      simp only [List.length_nil]
      omega
    next => cases h

/-- The filler matcher keeps nothing, hence a sublist of the consumed span. -/
theorem mAlts_consumed (alts : List (List Char)) :
    ∀ s l rep k s2, mAlts alts s l = some (rep, k, s2) → rep <+ l.take (k + 1) := by
  intro s l rep k s2 h
  unfold mAlts at h
  split at h
  · cases h
  · split at h
    next n hn =>
      simp only [Option.some.injEq, Prod.mk.injEq] at h
      obtain ⟨h1, -, -⟩ := h
      subst h1
      exact List.nil_sublist _
    next => cases h

/-- The whitespace-run matcher emits one space for a nonempty run. -/
theorem mWsRun_len : ∀ s l rep k s2, mWsRun s l = some (rep, k, s2) →
    rep.length ≤ k + 1 ∧ k + 1 ≤ l.length := by
  intro s l rep k s2 h
  unfold mWsRun at h
  split at h
  next c cs =>
    split at h
    next hc =>
      simp only [Option.some.injEq, Prod.mk.injEq] at h
      obtain ⟨h1, h2, -⟩ := h
      subst h1
      have hrun : (c :: cs).takeWhile pyIsSpace = c :: cs.takeWhile pyIsSpace := by
        simp [List.takeWhile_cons, hc]
      have hle := (List.takeWhile_sublist (l := cs) pyIsSpace).length_le
      rw [hrun] at h2
      simp only [List.length_cons] at h2
      refine ⟨by simp, ?_⟩
      simp only [List.length_cons]
      omega
    next => cases h
  next => cases h

/-- Whitespace-run replacement characters satisfy the extra predicate of
being a space. -/
theorem mWsRun_mem : ∀ s l rep k s2, mWsRun s l = some (rep, k, s2) →
    ∀ c ∈ rep, c ∈ l ∨ c = ' ' := by
  intro s l rep k s2 h
  unfold mWsRun at h
  split at h
  next c cs =>
    split at h
    next hc =>
      simp only [Option.some.injEq, Prod.mk.injEq] at h
      obtain ⟨h1, -, -⟩ := h
      subst h1
      intro x hx
      simp only [List.mem_singleton] at hx
      exact Or.inr hx
    next => cases h
  next => cases h

/-- The punctuation-space matcher keeps only the punctuation mark of the
consumed span. -/
theorem mWsPunct_consumed : ∀ s l rep k s2, mWsPunct s l = some (rep, k, s2) →
    rep <+ l.take (k + 1) := by
  intro s l rep k s2 h
  unfold mWsPunct at h
  split at h
  next c cs =>
    split at h
    next hc =>
      split at h
      next p rest hdrop =>
        split at h
        next hp =>
          simp only [Option.some.injEq, Prod.mk.injEq] at h
          obtain ⟨h1, h2, -⟩ := h
          subst h1
          have hsplit : (c :: cs).takeWhile pyIsSpace ++ (p :: rest) = c :: cs := by
            rw [← hdrop]; exact List.takeWhile_append_dropWhile pyIsSpace (c :: cs)
          have htake : (c :: cs).take (k + 1) =
              (c :: cs).takeWhile pyIsSpace ++ [p] := by
            conv_lhs => rw [← hsplit]
            rw [← h2, List.take_append]
            rfl
          rw [htake]
          exact List.sublist_append_right _ _
        next => cases h
      next => cases h
    next => cases h
  next => cases h

/-- The punctuation-space matcher consumes at least its replacement within
the text. -/
theorem mWsPunct_len : ∀ s l rep k s2, mWsPunct s l = some (rep, k, s2) →
    rep.length ≤ k + 1 ∧ k + 1 ≤ l.length := by
  intro s l rep k s2 h
  have hc := mWsPunct_consumed s l rep k s2 h
  have h1 : rep.length ≤ (l.take (k+1)).length := hc.length_le
  have h2 : (l.take (k+1)).length ≤ k + 1 := by simp
  constructor
  · omega
  · unfold mWsPunct at h
    split at h
    next c cs =>
      split at h
      next hcsp =>
        split at h
        next p rest hdrop =>
          split at h
          next hp =>
            simp only [Option.some.injEq, Prod.mk.injEq] at h
            obtain ⟨-, hk, -⟩ := h
            have hsplit : (c :: cs).takeWhile pyIsSpace ++ (p :: rest) = c :: cs := by
              rw [← hdrop]; exact List.takeWhile_append_dropWhile pyIsSpace (c :: cs)
            have : (c :: cs).length =
                ((c :: cs).takeWhile pyIsSpace).length + 1 + rest.length := by
              conv_lhs => rw [← hsplit]
              simp only [List.length_append, List.length_cons]
              omega
            omega
          next => cases h
        next => cases h
      next => cases h
    next => cases h

/-- The filler-pattern alternatives are all nonempty. -/
theorem fillerAlts_ne :
    (∀ a ∈ fillerAlts1, a ≠ []) ∧ (∀ a ∈ fillerAlts2, a ≠ []) ∧
      (∀ a ∈ fillerAlts3, a ≠ []) := by
  refine ⟨?_, ?_, ?_⟩ <;> · intro a ha; fin_cases ha <;> simp

/-- A filler pass only deletes: its output is a sublist of its input. -/
theorem subFiller_sublist (alts : List (List Char)) (t : List Char) :
    subFiller alts t <+ t :=
  scanSt_sublist _ _ (mAlts_consumed alts) _ _

/-- The simplifying stage never lengthens the text. -/
theorem simplify_length_le (t : List Char) :
    (simplify_sentences t).length ≤ t.length := by
  unfold simplify_sentences
  refine le_trans (pyStrip_sublist _).length_le ?_
  refine le_trans (scanSt_length_le _ _ mWsPunct_len _ _) ?_
  refine le_trans (scanSt_length_le _ _ mWsRun_len _ _) ?_
  refine le_trans (subFiller_sublist _ _).length_le ?_
  refine le_trans (subFiller_sublist _ _).length_le ?_
  exact (subFiller_sublist _ _).length_le

/-- Characters of the simplifying stage output come from the input or are
spaces produced by whitespace collapsing. -/
theorem simplify_mem (t : List Char) :
    ∀ c ∈ simplify_sentences t, c ∈ t ∨ c = ' ' := by
  intro c hc
  unfold simplify_sentences at hc
  have hc1 := (pyStrip_sublist _).subset hc
  have hc2 := (scanSt_sublist _ _ mWsPunct_consumed _ _).subset hc1
  have hc3 := scanSt_mem mWsRun updU (fun c => c = ' ') mWsRun_mem _ _ c hc2
  rcases hc3 with h | h
  · have h4 := (subFiller_sublist fillerAlts3 _).subset h
    have h5 := (subFiller_sublist fillerAlts2 _).subset h4
    exact Or.inl ((subFiller_sublist fillerAlts1 _).subset h5)
  · exact Or.inr h

/-! ## Marker-free texts and idempotence of the syntax stripper

A text is free of the targeted markers when it contains none of the marker
characters, no line starts with an ordered-list marker and no run of three or
more newlines occurs.  On such texts every substitution of the stage is the
identity and the stage reduces to whitespace trimming, whose output is again
marker free; hence the stage is idempotent there. -/

/-- Fire condition of the ordered-list matcher, as a predicate on the text
following a line start: optional whitespace, a nonempty digit run, a period
and further whitespace. -/
def olistFire (l : List Char) : Bool :=
  match (l.dropWhile pyIsSpace).dropWhile Char.isDigit with
  | '.' :: r2 =>
    !((l.dropWhile pyIsSpace).takeWhile Char.isDigit).isEmpty &&
      !(r2.takeWhile pyIsSpace).isEmpty
  | _ => false

/-- No suffix of the text that follows a newline satisfies the ordered-list
fire condition. -/
def noOListTailB : List Char → Bool
  | [] => true
  | c :: cs => (if c = '\n' then !(olistFire cs) else true) && noOListTailB cs

/-- Whether the text contains a run of three consecutive newlines. -/
def hasTripleNL : List Char → Bool
  | [] => false
  | c :: cs => (c == '\n' && decide (cs.take 2 = ['\n', '\n'])) || hasTripleNL cs

/-- The marker characters targeted by the syntax stripper. -/
def markerChars : List Char := ['*', '_', Char.ofNat 96, '#', '[', '+', '-']

/-- A text free of the targeted markdown markers: no marker character, no
ordered-list marker at any line start, no triple-newline run. -/
def markerFreeB (t : List Char) : Bool :=
  t.all (fun c => !(markerChars.contains c)) && !(olistFire t) &&
    noOListTailB t && !(hasTripleNL t)

/-- The double-star matcher only fires on a star. -/
theorem mBold_char : ∀ s l x, mBold s l = some x → '*' ∈ l := by
  intro s l x h
  unfold mBold at h
  split at h
  next rest =>
    split at h
    · exact List.mem_cons_self _ _
    · cases h
  next => cases h

/-- The single-star matcher only fires on a star. -/
theorem mItalic_char : ∀ s l x, mItalic s l = some x → '*' ∈ l := by
  intro s l x h
  unfold mItalic at h
  split at h
  next rest =>
    split at h
    · exact List.mem_cons_self _ _
    · cases h
  next => cases h

/-- The double-underscore matcher only fires on an underscore. -/
theorem mBoldU_char : ∀ s l x, mBoldU s l = some x → '_' ∈ l := by
  intro s l x h
  unfold mBoldU at h
  split at h
  next rest =>
    split at h
    · exact List.mem_cons_self _ _
    · cases h
  next => cases h

/-- The single-underscore matcher only fires on an underscore. -/
theorem mItalicU_char : ∀ s l x, mItalicU s l = some x → '_' ∈ l := by
  intro s l x h
  unfold mItalicU at h
  split at h
  next rest =>
    split at h
    · exact List.mem_cons_self _ _
    · cases h
  next => cases h

/-- A nonempty takeWhile run forces a satisfying head element. -/
theorem head_of_takeWhile_ne (p : Char → Bool) (l : List Char)
    (h : l.takeWhile p ≠ []) : ∃ c cs, l = c :: cs ∧ p c = true := by
  cases l with
  | nil => simp at h
  | cons c cs =>
    refine ⟨c, cs, rfl, ?_⟩
    by_contra hc
    rw [List.takeWhile_cons_of_neg (by simpa using hc)] at h
    exact h rfl

/-- The heading matcher only fires on a hash mark. -/
theorem mHeaders_char : ∀ s l x, mHeaders s l = some x → '#' ∈ l := by
  intro s l x h
  unfold mHeaders at h
  split at h
  · split at h
    next hc =>
      obtain ⟨h1, -, -⟩ := hc
      have hne : l.takeWhile (fun c => c == '#') ≠ [] := by
        intro he; rw [he] at h1; simp at h1
      obtain ⟨c, cs, rfl, hcp⟩ := head_of_takeWhile_ne _ _ hne
      have : c = '#' := by simpa using hcp
      simp [this]
    next => cases h
  · cases h

/-- The opening-fence matcher only fires on a backquote. -/
theorem mFence1_char : ∀ s l x, mFence1 s l = some x → btick ∈ l := by
  intro s l x h
  unfold mFence1 at h
  split at h
  next c1 c2 c3 rest =>
    split at h
    next hc => simp [hc.1]
    next => cases h
  next => cases h

/-- The bare-fence matcher only fires on a backquote. -/
theorem mFence2_char : ∀ s l x, mFence2 s l = some x → btick ∈ l := by
  intro s l x h
  unfold mFence2 at h
  split at h
  next c1 c2 c3 rest =>
    split at h
    next hc => simp [hc.1]
    next => cases h
  next => cases h

/-- The inline-code matcher only fires on a backquote. -/
theorem mInlineCode_char : ∀ s l x, mInlineCode s l = some x → btick ∈ l := by
  intro s l x h
  unfold mInlineCode at h
  split at h
  next c0 rest =>
    split at h
    next hc => simp [hc.1]
    next => cases h
  next => cases h

/-- The link matcher only fires on an opening bracket. -/
theorem mLink_char : ∀ s l x, mLink s l = some x → '[' ∈ l := by
  intro s l x h
  unfold mLink at h
  split at h
  next rest =>
    split at h
    next r2 =>
      split at h
      · exact List.mem_cons_self _ _
      · cases h
    next => cases h
  next => cases h

/-- The unordered-list matcher only fires on a dash, star or plus. -/
theorem mUList_char : ∀ s l x, mUList s l = some x →
    '-' ∈ l ∨ '*' ∈ l ∨ '+' ∈ l := by
  intro s l x h
  unfold mUList at h
  split at h
  · split at h
    next m0 r2 hdrop =>
      split at h
      next hc =>
        have hm : m0 ∈ l := by
          have : m0 ∈ l.dropWhile pyIsSpace := by rw [hdrop]; exact List.mem_cons_self _ _
          exact (List.dropWhile_sublist _).subset this
        rcases hc.1 with h0 | h0 | h0 <;> rw [h0] at hm
        · exact Or.inl hm
        · exact Or.inr (Or.inl hm)
        · exact Or.inr (Or.inr hm)
      next => cases h
    next => cases h
  · cases h

/-- The horizontal-rule matcher only fires on a rule character. -/
theorem mHR_char : ∀ s l x, mHR s l = some x →
    '-' ∈ l ∨ '*' ∈ l ∨ '_' ∈ l := by
  intro s l x h
  unfold mHR at h
  split at h
  · split at h
    next hc =>
      have hne : l.takeWhile isHRChar ≠ [] := by
        intro he; rw [he] at hc; simp at hc
      obtain ⟨c, cs, rfl, hcp⟩ := head_of_takeWhile_ne _ _ hne
      unfold isHRChar at hcp
      simp only [Bool.or_eq_true, beq_iff_eq] at hcp
      rcases hcp with (rfl | rfl) | rfl
      · exact Or.inl (List.mem_cons_self _ _)
      · exact Or.inr (Or.inl (List.mem_cons_self _ _))
      · exact Or.inr (Or.inr (List.mem_cons_self _ _))
    next => cases h
  · cases h

/-- The newline-collapsing matcher only fires on a triple newline. -/
theorem mNL3_fire : ∀ s l x, mNL3 s l = some x →
    ∃ r, l = '\n' :: '\n' :: '\n' :: r := by
  intro s l x h
  unfold mNL3 at h
  split at h
  next r => exact ⟨r, rfl⟩
  next => cases h

/-- The ordered-list matcher fires only at a line start satisfying the
ordered-list fire condition. -/
theorem mOList_fire : ∀ s l x, mOList s l = some x →
    s = true ∧ olistFire l = true := by
  intro s l x h
  unfold mOList at h
  split at h
  next hs =>
    refine ⟨hs, ?_⟩
    split at h
    next r2 hdrop =>
      split at h
      next hc =>
        unfold olistFire
        rw [hdrop]
        simp only [Bool.and_eq_true, Bool.not_eq_true', List.isEmpty_eq_false]
        exact ⟨hc.1, hc.2⟩
      next => cases h
    next => cases h
  next => simp at h

/-- A fold of the line-start update yielding true means the prefix is empty
with a true seed, or ends with a newline. -/
theorem foldl_updNL_true : ∀ (a : List Char) (s : Bool),
    a.foldl updNL s = true → (a = [] ∧ s = true) ∨ ∃ a2, a = a2 ++ ['\n'] := by
  intro a
  induction a with
  | nil => intro s h; exact Or.inl ⟨rfl, h⟩
  | cons c cs ih =>
    intro s h
    simp only [List.foldl_cons] at h
    rcases ih (updNL s c) h with ⟨h1, h2⟩ | ⟨a2, h2⟩
    · subst h1
      unfold updNL at h2
      right
      exact ⟨[], by simp [(beq_iff_eq.mp h2 : c = '\n')]⟩
    · right
      exact ⟨c :: a2, by simp [h2]⟩

/-- From the no-ordered-list-after-newline flag, every suffix after a newline
fails the ordered-list fire test. -/
theorem noOListTailB_split : ∀ (t : List Char), noOListTailB t = true →
    ∀ a b, t = a ++ '\n' :: b → olistFire b = false := by
  intro t ht a
  induction a generalizing t with
  | nil =>
    intro b hb
    subst hb
    simp only [noOListTailB] at ht
    simp at ht
    exact ht.1
  | cons c cs ih =>
    intro b hb
    subst hb
    simp only [noOListTailB, Bool.and_eq_true] at ht
    exact ih _ ht.2 b rfl

/-- Rebuilding the no-ordered-list-after-newline flag from the suffix
characterization. -/
theorem noOListTailB_intro : ∀ (t : List Char),
    (∀ a b, t = a ++ '\n' :: b → olistFire b = false) → noOListTailB t = true := by
  intro t
  induction t with
  | nil => intro _; rfl
  | cons c cs ih =>
    intro h
    unfold noOListTailB
    simp only [Bool.and_eq_true]
    constructor
    · split
      next hc =>
        subst hc
        simp only [Bool.not_eq_true']
        exact h [] cs rfl
      next => rfl
    · exact ih (fun a b hab => h (c :: a) b (by simp [hab]))

/-- A triple-newline decomposition forces the triple-newline flag. -/
theorem hasTripleNL_intro : ∀ (a t b : List Char),
    t = a ++ '\n' :: '\n' :: '\n' :: b → hasTripleNL t = true := by
  intro a
  induction a with
  | nil =>
    intro t b h
    subst h
    unfold hasTripleNL
    simp
  | cons c cs ih =>
    intro t b h
    subst h
    have := ih (cs ++ '\n' :: '\n' :: '\n' :: b) b rfl
    unfold hasTripleNL
    simp only [List.cons_append, Bool.or_eq_true]
    exact Or.inr this

/-- The triple-newline flag yields a triple-newline decomposition. -/
theorem hasTripleNL_elim : ∀ (t : List Char), hasTripleNL t = true →
    ∃ a b, t = a ++ '\n' :: '\n' :: '\n' :: b := by
  intro t
  induction t with
  | nil => intro h; cases h
  | cons c cs ih =>
    intro h
    unfold hasTripleNL at h
    simp only [Bool.or_eq_true, Bool.and_eq_true, beq_iff_eq, decide_eq_true_eq] at h
    rcases h with ⟨h1, h2⟩ | h1
    · subst h1
      refine ⟨[], cs.drop 2, ?_⟩
      simp only [List.nil_append]
      conv_lhs => rw [← List.take_append_drop 2 cs, h2]
      rfl
    · obtain ⟨a, b, hab⟩ := ih h1
      exact ⟨c :: a, b, by simp [hab]⟩

/-- takeWhile stops exactly at the first failing element. -/
theorem takeWhile_append_stop (p : Char → Bool) (u : List Char) (x : Char)
    (v : List Char) (hu : ∀ c ∈ u, p c = true) (hx : p x = false) :
    (u ++ x :: v).takeWhile p = u := by
  rw [List.takeWhile_append_of_pos hu, List.takeWhile_cons_of_neg (by simp [hx])]
  simp

/-- dropWhile drops exactly up to the first failing element. -/
theorem dropWhile_append_stop (p : Char → Bool) (u : List Char) (x : Char)
    (v : List Char) (hu : ∀ c ∈ u, p c = true) (hx : p x = false) :
    (u ++ x :: v).dropWhile p = x :: v := by
  rw [List.dropWhile_append_of_pos hu, List.dropWhile_cons_of_neg (by simp [hx])]

/-- Digits are not whitespace. -/
theorem digit_not_space (c : Char) (h : c.isDigit = true) : pyIsSpace c = false := by
  cases hsp : pyIsSpace c with
  | false => rfl
  | true =>
    exfalso
    unfold pyIsSpace at hsp
    simp only [Bool.or_eq_true, beq_iff_eq] at hsp
    rcases hsp with ((((rfl | rfl) | rfl) | rfl) | rfl) | rfl <;>
      exact absurd h (by decide)

/-- Alphanumeric characters are not whitespace. -/
theorem alnum_not_space (c : Char) (h : pyIsAlnum c = true) : pyIsSpace c = false := by
  cases hsp : pyIsSpace c with
  | false => rfl
  | true =>
    exfalso
    unfold pyIsSpace at hsp
    simp only [Bool.or_eq_true, beq_iff_eq] at hsp
    rcases hsp with ((((rfl | rfl) | rfl) | rfl) | rfl) | rfl <;>
      exact absurd h (by decide)

/-- The ordered-list fire condition is stable under appending to the text. -/
theorem olistFire_append (b y : List Char) (h : olistFire b = true) :
    olistFire (b ++ y) = true := by
  unfold olistFire at h
  split at h
  next r2 hdrop =>
    simp only [Bool.and_eq_true, Bool.not_eq_true', List.isEmpty_eq_false] at h
    obtain ⟨hd, hws2⟩ := h
    -- decompose b
    have hb : b.takeWhile pyIsSpace ++
        ((b.dropWhile pyIsSpace).takeWhile Char.isDigit ++ '.' :: r2) = b := by
      rw [← hdrop, List.takeWhile_append_dropWhile, List.takeWhile_append_dropWhile]
    obtain ⟨w2, r3, hr2⟩ : ∃ w2 r3, r2 = w2 :: r3 := by
      cases hr : r2.takeWhile pyIsSpace with
      | nil => exact absurd hr hws2
      | cons a as =>
        cases r2 with
        | nil => simp at hr
        | cons z zs => exact ⟨z, zs, rfl⟩
    have hw2 : pyIsSpace w2 = true := by
      cases hr : r2.takeWhile pyIsSpace with
      | nil => exact absurd hr hws2
      | cons a as =>
        rw [hr2] at hr
        rw [List.takeWhile_cons] at hr
        split at hr
        next hp => exact hp
        next => cases hr
    -- compute for b ++ y
    have hdw : (b ++ y).dropWhile pyIsSpace =
        ((b.dropWhile pyIsSpace).takeWhile Char.isDigit ++ '.' :: r2) ++ y := by
      conv_lhs => rw [← hb]
      rw [List.append_assoc]
      rw [List.dropWhile_append_of_pos (fun c hc => List.mem_takeWhile_imp hc)]
      have hd0 : ∃ d0 ds, (b.dropWhile pyIsSpace).takeWhile Char.isDigit = d0 :: ds := by
        cases hdig : (b.dropWhile pyIsSpace).takeWhile Char.isDigit with
        | nil => exact absurd hdig hd
        | cons d0 ds => exact ⟨d0, ds, rfl⟩
      obtain ⟨d0, ds, hd0⟩ := hd0
      have hd0digit : Char.isDigit d0 = true := by
        have : d0 ∈ (b.dropWhile pyIsSpace).takeWhile Char.isDigit := by
          rw [hd0]; exact List.mem_cons_self _ _
        exact List.mem_takeWhile_imp this
      have hd0ws : pyIsSpace d0 = false := digit_not_space d0 hd0digit
      rw [hd0]
      simp only [List.cons_append, List.append_assoc]
      rw [List.dropWhile_cons_of_neg (by simp [hd0ws])]
    unfold olistFire
    rw [hdw]
    have htd : ((((b.dropWhile pyIsSpace).takeWhile Char.isDigit ++ '.' :: r2) ++ y)).takeWhile
        Char.isDigit = (b.dropWhile pyIsSpace).takeWhile Char.isDigit := by
      rw [List.append_assoc, List.cons_append]
      exact takeWhile_append_stop _ _ _ _ (fun c hc => List.mem_takeWhile_imp hc) (by decide)
    have hdd : ((((b.dropWhile pyIsSpace).takeWhile Char.isDigit ++ '.' :: r2) ++ y)).dropWhile
        Char.isDigit = '.' :: (r2 ++ y) := by
      rw [List.append_assoc, List.cons_append]
      exact dropWhile_append_stop _ _ _ _ (fun c hc => List.mem_takeWhile_imp hc) (by decide)
    rw [hdd]
    simp only [Bool.and_eq_true, Bool.not_eq_true', List.isEmpty_eq_false]
    constructor
    · rw [htd]; exact hd
    · rw [hr2, List.cons_append, List.takeWhile_cons_of_pos hw2]
      simp
  next => cases h

/-- The ordered-list fire condition ignores a leading all-whitespace prefix. -/
theorem olistFire_ws_absorb (u x : List Char) (hu : ∀ c ∈ u, pyIsSpace c = true) :
    olistFire (u ++ x) = olistFire x := by
  unfold olistFire
  rw [List.dropWhile_append_of_pos hu]

/-- Decomposition of a text into all-whitespace margins around its strip. -/
theorem pyStrip_decomp (t : List Char) :
    ∃ u v, (∀ c ∈ u, pyIsSpace c = true) ∧ (∀ c ∈ v, pyIsSpace c = true) ∧
      t = u ++ (pyStrip t ++ v) := by
  refine ⟨t.takeWhile pyIsSpace,
    ((t.dropWhile pyIsSpace).reverse.takeWhile pyIsSpace).reverse,
    fun c hc => List.mem_takeWhile_imp hc,
    fun c hc => List.mem_takeWhile_imp (List.mem_reverse.mp hc), ?_⟩
  unfold pyStrip
  conv_lhs => rw [← List.takeWhile_append_dropWhile pyIsSpace t]
  congr 1
  conv_lhs => rw [← List.reverse_reverse (t.dropWhile pyIsSpace)]
  conv_lhs =>
    rw [← List.takeWhile_append_dropWhile pyIsSpace (t.dropWhile pyIsSpace).reverse]
  rw [List.reverse_append]

/-- dropWhile is the identity when the head fails the predicate. -/
theorem dropWhile_id_of_head (p : Char → Bool) (l : List Char)
    (h : l = [] ∨ ∃ c cs, l = c :: cs ∧ p c = false) : l.dropWhile p = l := by
  rcases h with rfl | ⟨c, cs, rfl, hc⟩
  · rfl
  · exact List.dropWhile_cons_of_neg (by simp [hc])

/-- A dropWhile result never starts with a satisfying element. -/
theorem dropWhile_shape (p : Char → Bool) (l : List Char) :
    l.dropWhile p = [] ∨ ∃ c cs, l.dropWhile p = c :: cs ∧ p c = false := by
  cases hd : l.dropWhile p with
  | nil => exact Or.inl rfl
  | cons c cs =>
    right
    refine ⟨c, cs, rfl, ?_⟩
    have := List.head?_dropWhile_not p l
    rw [hd] at this
    exact this

/-- Stripping is idempotent. -/
theorem pyStrip_idem (t : List Char) : pyStrip (pyStrip t) = pyStrip t := by
  have h1 : (pyStrip t).dropWhile pyIsSpace = pyStrip t := by
    apply dropWhile_id_of_head
    cases hs : pyStrip t with
    | nil => exact Or.inl rfl
    | cons c cs =>
      right
      refine ⟨c, cs, rfl, ?_⟩
      unfold pyStrip at hs
      rcases dropWhile_shape pyIsSpace t with hd | ⟨d, ds, hd, hdp⟩
      · rw [hd] at hs; simp at hs
      · rw [hd] at hs
        have hpre : ((d :: ds).reverse.dropWhile pyIsSpace).reverse <+: (d :: ds) := by
          have hsuf : (d :: ds).reverse.dropWhile pyIsSpace <:+ (d :: ds).reverse :=
            List.dropWhile_suffix pyIsSpace
          have := List.reverse_prefix.mpr hsuf
          simpa using this
        obtain ⟨w, hw⟩ := hpre
        rw [hs] at hw
        cases hw
        exact hdp
  have h2 : (pyStrip t).reverse.dropWhile pyIsSpace = (pyStrip t).reverse := by
    apply dropWhile_id_of_head
    unfold pyStrip
    rw [List.reverse_reverse]
    exact dropWhile_shape pyIsSpace (t.dropWhile pyIsSpace).reverse
  show (((pyStrip t).dropWhile pyIsSpace).reverse.dropWhile pyIsSpace).reverse = pyStrip t
  rw [h1, h2, List.reverse_reverse]

/-- Unpacking the marker-character component of marker freeness. -/
theorem marker_absent (t : List Char)
    (h : t.all (fun c => !(markerChars.contains c)) = true) :
    '*' ∉ t ∧ '_' ∉ t ∧ btick ∉ t ∧ '#' ∉ t ∧ '[' ∉ t ∧ '+' ∉ t ∧ '-' ∉ t := by
  have hgen : ∀ c, markerChars.contains c = true → c ∉ t := by
    intro c hc hmem
    have := List.all_eq_true.mp h c hmem
    rw [hc] at this
    simp at this
  exact ⟨hgen '*' (by decide), hgen '_' (by decide), hgen btick (by decide),
    hgen '#' (by decide), hgen '[' (by decide), hgen '+' (by decide),
    hgen '-' (by decide)⟩

/-- The double-star substitution is trivial on star-free text. -/
theorem subBold_id (t : List Char) (h : '*' ∉ t) : scanSt mBold updU () t = t :=
  scanSt_id _ _ _ _ (fun a b hab _ => by
    cases hm : mBold (a.foldl updU ()) b with
    | none => rfl
    | some x =>
      exact absurd (hab ▸ List.mem_append.mpr (Or.inr (mBold_char _ _ _ hm))) h)

/-- The single-star substitution is trivial on star-free text. -/
theorem subItalic_id (t : List Char) (h : '*' ∉ t) : scanSt mItalic updU () t = t :=
  scanSt_id _ _ _ _ (fun a b hab _ => by
    cases hm : mItalic (a.foldl updU ()) b with
    | none => rfl
    | some x =>
      exact absurd (hab ▸ List.mem_append.mpr (Or.inr (mItalic_char _ _ _ hm))) h)

/-- The double-underscore substitution is trivial on underscore-free text. -/
theorem subBoldU_id (t : List Char) (h : '_' ∉ t) : scanSt mBoldU updU () t = t :=
  scanSt_id _ _ _ _ (fun a b hab _ => by
    cases hm : mBoldU (a.foldl updU ()) b with
    | none => rfl
    | some x =>
      exact absurd (hab ▸ List.mem_append.mpr (Or.inr (mBoldU_char _ _ _ hm))) h)

/-- The single-underscore substitution is trivial on underscore-free text. -/
theorem subItalicU_id (t : List Char) (h : '_' ∉ t) : scanSt mItalicU updU () t = t :=
  scanSt_id _ _ _ _ (fun a b hab _ => by
    cases hm : mItalicU (a.foldl updU ()) b with
    | none => rfl
    | some x =>
      exact absurd (hab ▸ List.mem_append.mpr (Or.inr (mItalicU_char _ _ _ hm))) h)

/-- The heading substitution is trivial on hash-free text. -/
theorem subHeaders_id (t : List Char) (h : '#' ∉ t) :
    scanSt mHeaders updNL true t = t :=
  scanSt_id _ _ _ _ (fun a b hab _ => by
    cases hm : mHeaders (a.foldl updNL true) b with
    | none => rfl
    | some x =>
      exact absurd (hab ▸ List.mem_append.mpr (Or.inr (mHeaders_char _ _ _ hm))) h)

/-- The opening-fence substitution is trivial on backquote-free text. -/
theorem subFence1_id (t : List Char) (h : btick ∉ t) : scanSt mFence1 updU () t = t :=
  scanSt_id _ _ _ _ (fun a b hab _ => by
    cases hm : mFence1 (a.foldl updU ()) b with
    | none => rfl
    | some x =>
      exact absurd (hab ▸ List.mem_append.mpr (Or.inr (mFence1_char _ _ _ hm))) h)

/-- The bare-fence substitution is trivial on backquote-free text. -/
theorem subFence2_id (t : List Char) (h : btick ∉ t) : scanSt mFence2 updU () t = t :=
  scanSt_id _ _ _ _ (fun a b hab _ => by
    cases hm : mFence2 (a.foldl updU ()) b with
    | none => rfl
    | some x =>
      exact absurd (hab ▸ List.mem_append.mpr (Or.inr (mFence2_char _ _ _ hm))) h)

/-- The inline-code substitution is trivial on backquote-free text. -/
theorem subInlineCode_id (t : List Char) (h : btick ∉ t) :
    scanSt mInlineCode updU () t = t :=
  scanSt_id _ _ _ _ (fun a b hab _ => by
    cases hm : mInlineCode (a.foldl updU ()) b with
    | none => rfl
    | some x =>
      exact absurd (hab ▸ List.mem_append.mpr (Or.inr (mInlineCode_char _ _ _ hm))) h)

/-- The link substitution is trivial on bracket-free text. -/
theorem subLink_id (t : List Char) (h : '[' ∉ t) : scanSt mLink updU () t = t :=
  scanSt_id _ _ _ _ (fun a b hab _ => by
    cases hm : mLink (a.foldl updU ()) b with
    | none => rfl
    | some x =>
      exact absurd (hab ▸ List.mem_append.mpr (Or.inr (mLink_char _ _ _ hm))) h)

/-- The unordered-list substitution is trivial without dash, star or plus. -/
theorem subUList_id (t : List Char) (h1 : '-' ∉ t) (h2 : '*' ∉ t) (h3 : '+' ∉ t) :
    scanSt mUList updNL true t = t :=
  scanSt_id _ _ _ _ (fun a b hab _ => by
    cases hm : mUList (a.foldl updNL true) b with
    | none => rfl
    | some x =>
      rcases mUList_char _ _ _ hm with hc | hc | hc
      · exact absurd (hab ▸ List.mem_append.mpr (Or.inr hc)) h1
      · exact absurd (hab ▸ List.mem_append.mpr (Or.inr hc)) h2
      · exact absurd (hab ▸ List.mem_append.mpr (Or.inr hc)) h3)

/-- The horizontal-rule substitution is trivial without its rule characters. -/
theorem subHR_id (t : List Char) (h1 : '-' ∉ t) (h2 : '*' ∉ t) (h3 : '_' ∉ t) :
    scanSt mHR updNL true t = t :=
  scanSt_id _ _ _ _ (fun a b hab _ => by
    cases hm : mHR (a.foldl updNL true) b with
    | none => rfl
    | some x =>
      rcases mHR_char _ _ _ hm with hc | hc | hc
      · exact absurd (hab ▸ List.mem_append.mpr (Or.inr hc)) h1
      · exact absurd (hab ▸ List.mem_append.mpr (Or.inr hc)) h2
      · exact absurd (hab ▸ List.mem_append.mpr (Or.inr hc)) h3)

/-- Newline collapsing is trivial without triple newlines. -/
theorem subNL3_id (t : List Char) (h : hasTripleNL t = false) :
    scanSt mNL3 updU () t = t :=
  scanSt_id _ _ _ _ (fun a b hab _ => by
    cases hm : mNL3 (a.foldl updU ()) b with
    | none => rfl
    | some x =>
      exfalso
      obtain ⟨r, rfl⟩ := mNL3_fire _ _ _ hm
      have := hasTripleNL_intro a t r (by rw [← hab])
      rw [h] at this
      cases this)

/-- The ordered-list substitution is trivial when no line start fires. -/
theorem subOList_id (t : List Char) (hof : olistFire t = false)
    (hnt : noOListTailB t = true) : scanSt mOList updNL true t = t :=
  scanSt_id _ _ _ _ (fun a b hab _ => by
    cases hm : mOList (a.foldl updNL true) b with
    | none => rfl
    | some x =>
      exfalso
      obtain ⟨hs, hfire⟩ := mOList_fire _ _ _ hm
      rcases foldl_updNL_true a true hs with ⟨rfl, -⟩ | ⟨a2, rfl⟩
      · simp only [List.nil_append] at hab
        rw [hab, hof] at hfire
        cases hfire
      · have hsplit : t = a2 ++ '\n' :: b := by rw [← hab]; simp
        have := noOListTailB_split t hnt a2 b hsplit
        rw [this] at hfire
        cases hfire)

/-- Unpacking marker freeness into its four components. -/
theorem markerFreeB_parts (t : List Char) (h : markerFreeB t = true) :
    t.all (fun c => !(markerChars.contains c)) = true ∧ olistFire t = false ∧
      noOListTailB t = true ∧ hasTripleNL t = false := by
  unfold markerFreeB at h
  simp only [Bool.and_eq_true, Bool.not_eq_true'] at h
  exact ⟨h.1.1.1, h.1.1.2, h.1.2, h.2⟩

/-- On marker-free text the whole syntax-stripping stage is just whitespace
trimming. -/
theorem strip_eq_pyStrip (t : List Char) (hmf : markerFreeB t = true) :
    strip_markdown_syntax t = pyStrip t := by
  obtain ⟨hall, hof, hnt, htn⟩ := markerFreeB_parts t hmf
  obtain ⟨hstar, hund, htk, hhash, hlb, hplus, hdash⟩ := marker_absent t hall
  unfold strip_markdown_syntax
  rw [subBold_id t hstar, subItalic_id t hstar, subBoldU_id t hund,
    subItalicU_id t hund, subHeaders_id t hhash, subFence1_id t htk,
    subFence2_id t htk, subInlineCode_id t htk, subLink_id t hlb,
    subUList_id t hdash hstar hplus, subOList_id t hof hnt,
    subHR_id t hdash hstar hund, subNL3_id t htn]

/-- Marker freeness is preserved by whitespace trimming. -/
theorem markerFree_pyStrip (t : List Char) (h : markerFreeB t = true) :
    markerFreeB (pyStrip t) = true := by
  obtain ⟨hall, hof, hnt, htn⟩ := markerFreeB_parts t h
  obtain ⟨u, v, hu, hv, hdec⟩ := pyStrip_decomp t
  unfold markerFreeB
  simp only [Bool.and_eq_true, Bool.not_eq_true']
  refine ⟨⟨⟨?_, ?_⟩, ?_⟩, ?_⟩
  · rw [List.all_eq_true]
    intro c hc
    exact List.all_eq_true.mp hall c ((pyStrip_sublist t).subset hc)
  · cases hfs : olistFire (pyStrip t) with
    | false => rfl
    | true =>
      exfalso
      have h1 : olistFire (pyStrip t ++ v) = true := olistFire_append _ v hfs
      have h2 : olistFire (u ++ (pyStrip t ++ v)) = true := by
        rw [olistFire_ws_absorb u _ hu]
        exact h1
      rw [← hdec, hof] at h2
      cases h2
  · apply noOListTailB_intro
    intro a b hab
    cases hfb : olistFire b with
    | false => rfl
    | true =>
      exfalso
      have hsplit : t = (u ++ a) ++ '\n' :: (b ++ v) := by
        rw [hdec, hab]
        simp
      have h1 := noOListTailB_split t hnt (u ++ a) (b ++ v) hsplit
      have h2 : olistFire (b ++ v) = true := olistFire_append b v hfb
      rw [h1] at h2
      cases h2
  · cases hfs : hasTripleNL (pyStrip t) with
    | false => rfl
    | true =>
      exfalso
      obtain ⟨a, b, hab⟩ := hasTripleNL_elim _ hfs
      have : t = (u ++ a) ++ '\n' :: '\n' :: '\n' :: (b ++ v) := by
        rw [hdec, hab]
        simp
      have := hasTripleNL_intro (u ++ a) t (b ++ v) this
      rw [htn] at this
      cases this

/-! ## The stopword filter

The sentence and word tokenizers are external collaborators of the
implementation (a pretrained sentence splitter and a treebank-style word
tokenizer); the stage is defined over arbitrary tokenizers, and model
instances reflecting the specification are given for concrete evaluation. -/

/-- Python-style space-separated join of token lists. -/
def joinSp : List (List Char) → List Char
  | [] => []
  | [x] => x
  | x :: y :: xs => x ++ ' ' :: joinSp (y :: xs)

/-- Modelled from the spec: the external sentence tokenizer splits text into
sentences, ending a sentence at terminal punctuation followed by whitespace
and dropping inter-sentence whitespace. -/
def splitSentAux (acc : List Char) : List Char → List (List Char)
  | [] => if acc.isEmpty then [] else [acc.reverse]
  | c :: cs =>
    if (c = '.' ∨ c = '!' ∨ c = '?') ∧ (cs = [] ∨ pyIsSpace (cs.headD ' ') = true) then
      (acc.reverse ++ [c]) :: splitSentAux [] (cs.dropWhile pyIsSpace)
    else splitSentAux (c :: acc) cs
termination_by l => l.length
decreasing_by
  · have := (List.dropWhile_sublist (l := cs) pyIsSpace).length_le
    simp only [List.length_cons]
    omega
  · simp only [List.length_cons]; omega

/-- Modelled from the spec: the external sentence tokenizer. -/
def sentTokenizeM (t : List Char) : List (List Char) :=
  splitSentAux [] (t.dropWhile pyIsSpace)

/-- Modelled from the spec: the external word tokenizer splits on whitespace
and separates punctuation characters into their own tokens. -/
def wordTokenizeM : List Char → List (List Char)
  | [] => []
  | c :: cs =>
    if pyIsSpace c then wordTokenizeM cs
    else if pyIsAlnum c then
      (c :: cs.takeWhile pyIsAlnum) :: wordTokenizeM (cs.dropWhile pyIsAlnum)
    else [c] :: wordTokenizeM cs
termination_by l => l.length
decreasing_by
  · simp only [List.length_cons]; omega
  · have := (List.dropWhile_sublist (l := cs) pyIsAlnum).length_le
    simp only [List.length_cons]
    omega
  · simp only [List.length_cons]; omega

/-- Builds a token containing an apostrophe. -/
def wApos (a b : String) : List Char := a.toList ++ apos :: b.toList

/-- Modelled from the spec: the external English stopword vocabulary, the
entries without an apostrophe. -/
def nltkStopwordsPlain : List String :=
  ["i", "me", "my", "myself", "we", "our", "ours", "ourselves", "you",
   "your", "yours", "yourself", "yourselves", "he", "him", "his", "himself",
   "she", "her", "hers", "herself", "it", "its", "itself", "they", "them",
   "their", "theirs", "themselves", "what", "which", "who", "whom", "this",
   "that", "these", "those", "am", "is", "are", "was", "were", "be", "been",
   "being", "have", "has", "had", "having", "do", "does", "did", "doing",
   "a", "an", "the", "and", "but", "if", "or", "because", "as", "until",
   "while", "of", "at", "by", "for", "with", "about", "against", "between",
   "into", "through", "during", "before", "after", "above", "below", "to",
   "from", "up", "down", "in", "out", "on", "off", "over", "under", "again",
   "further", "then", "once", "here", "there", "when", "where", "why", "how",
   "all", "any", "both", "each", "few", "more", "most", "other", "some",
   "such", "no", "nor", "not", "only", "own", "same", "so", "than", "too",
   "very", "s", "t", "can", "will", "just", "don", "should", "now", "d",
   "ll", "m", "o", "re", "ve", "y", "ain", "aren", "couldn", "didn",
   "doesn", "hadn", "hasn", "haven", "isn", "ma", "mightn", "mustn",
   "needn", "shan", "shouldn", "wasn", "weren", "won", "wouldn"]

/-- Modelled from the spec: the vocabulary entries containing an apostrophe. -/
def nltkStopwordsApos : List (List Char) :=
  [wApos "you" "re", wApos "you" "ve", wApos "you" "ll", wApos "you" "d",
   wApos "she" "s", wApos "it" "s", wApos "that" "ll", wApos "don" "t",
   wApos "should" "ve", wApos "aren" "t", wApos "couldn" "t",
   wApos "didn" "t", wApos "doesn" "t", wApos "hadn" "t", wApos "hasn" "t",
   wApos "haven" "t", wApos "isn" "t", wApos "mightn" "t", wApos "mustn" "t",
   wApos "needn" "t", wApos "shan" "t", wApos "shouldn" "t",
   wApos "wasn" "t", wApos "weren" "t", wApos "won" "t", wApos "wouldn" "t"]

/-- The filler words the minifier adds to the stopword vocabulary. -/
def addedFillerWords : List String :=
  ["please", "thank", "thanks", "kindly", "could", "would", "maybe",
   "perhaps", "possibly", "probably"]

/-- The complete stopword vocabulary of the minifier. -/
def stopwordsSet : List (List Char) :=
  nltkStopwordsPlain.map String.toList ++ nltkStopwordsApos ++
    addedFillerWords.map String.toList

/-- Whether the case-folded form of a token is in the stopword vocabulary. -/
def isStopword (w : List Char) : Bool := stopwordsSet.contains (lowerStr w)

/-- The retention test of the stopword filter for non-initial tokens: keep a
token unless its case-folded form is a stopword and it is alphanumeric. -/
def keepWord (w : List Char) : Bool := !(isStopword w) || !(isAlnumStr w)

/-- Per-sentence filtering: the first token is always retained, later tokens
pass the retention test. -/
def filterSentence : List (List Char) → List (List Char)
  | [] => []
  | w :: rest => w :: rest.filter keepWord

/-- The stopword-removal stage over given sentence and word tokenizers. -/
def remove_stopwords (st wt : List Char → List (List Char)) (text : List Char) :
    List Char :=
  joinSp ((((st text).map (fun s => filterSentence (wt s))).filter
    (fun l => !l.isEmpty)).map joinSp)

/-! ## The synonym compactor

The lexical-relation lookup is an external collaborator mapping a word to an
ordered list of relation groups, each a list of candidate names; the stage is
defined over an arbitrary lookup. -/

/-- Replaces underscores by spaces in a candidate name. -/
def underscoreToSpace (l : List Char) : List Char :=
  l.map (fun c => if c = '_' then ' ' else c)

/-- First minimum-length element of a candidate list, as the minimum with a
length key selects it. -/
def minByLen : List (List Char) → Option (List Char)
  | [] => none
  | x :: xs => some (xs.foldl (fun acc y => if y.length < acc.length then y else acc) x)

/-- The technical terms never replaced by a synonym. -/
def preserve_terms : List String :=
  ["api", "cli", "json", "xml", "html", "css", "sql", "http", "https",
   "git", "github", "docker", "kubernetes", "python", "javascript",
   "markdown", "minimark", "function", "class", "method", "variable"]

/-- Whether the case-folded form of a token is a preserved term. -/
def isPreserved (w : List Char) : Bool :=
  (preserve_terms.map String.toList).contains (lowerStr w)

/-- Per-word synonym replacement: preserved or short words pass through; for
other words the first relation group is consulted, candidates that case-fold
to the word itself are excluded, underscores become spaces, and the shortest
candidate substitutes the word only when strictly shorter. -/
def replaceWord (wn : List Char → List (List (List Char))) (w : List Char) :
    List Char :=
  if isPreserved w || decide (w.length ≤ 4) then w
  else
    match wn w with
    | [] => w
    | g :: _ =>
      match minByLen ((g.filter
          (fun n => !(lowerStr n == lowerStr w))).map underscoreToSpace) with
      | none => w
      | some shortest => if shortest.length < w.length then shortest else w

/-- The synonym-replacement stage over a word tokenizer and a lookup. -/
def replace_synonyms (wt : List Char → List (List Char))
    (wn : List Char → List (List (List Char))) (text : List Char) : List Char :=
  joinSp ((wt text).map (replaceWord wn))

/-! ## The pipeline -/

/-- Conditional stage application. -/
def applyIf (b : Bool) (f : List Char → List Char) (x : List Char) : List Char :=
  if b then f x else x

/-- The minification pipeline: each stage runs exactly when its tag is a
member of the requested strategy list, in the fixed order syntax, stopwords,
simplify, synonyms. -/
def minify (st wt : List Char → List (List Char))
    (wn : List Char → List (List (List Char))) (text : List Char)
    (strategies : List String) : List Char :=
  let r1 := if strategies.contains "syntax" then strip_markdown_syntax text else text
  let r2 := if strategies.contains "stopwords" then remove_stopwords st wt r1 else r1
  let r3 := if strategies.contains "simplify" then simplify_sentences r2 else r2
  let r4 := if strategies.contains "synonyms" then replace_synonyms wt wn r3 else r3
  r4

/-- Characters of a joined token list are spaces or token characters. -/
theorem joinSp_mem : ∀ (l : List (List Char)) (c : Char), c ∈ joinSp l →
    c = ' ' ∨ ∃ x ∈ l, c ∈ x := by
  intro l
  induction l with
  | nil => intro c hc; cases hc
  | cons x xs ih =>
    intro c hc
    cases xs with
    | nil =>
      simp only [joinSp] at hc
      exact Or.inr ⟨x, by simp, hc⟩
    | cons y ys =>
      simp only [joinSp, List.mem_append, List.mem_cons] at hc
      rcases hc with h | h | h
      · exact Or.inr ⟨x, by simp, h⟩
      · exact Or.inl h
      · rcases ih c h with h2 | ⟨z, hz, hcz⟩
        · exact Or.inl h2
        · exact Or.inr ⟨z, by simp [hz], hcz⟩

/-- Joining pointwise shorter tokens yields a shorter join. -/
theorem joinSp_map_length_le (f : List Char → List Char) :
    ∀ (l : List (List Char)), (∀ x ∈ l, (f x).length ≤ x.length) →
      (joinSp (l.map f)).length ≤ (joinSp l).length := by
  intro l
  induction l with
  | nil => intro _; simp [joinSp]
  | cons x xs ih =>
    intro h
    cases xs with
    | nil => simpa [joinSp] using h x (by simp)
    | cons y ys =>
      have h1 := h x (by simp)
      have h2 := ih (fun z hz => h z (List.mem_cons_of_mem x hz))
      simp only [List.map_cons] at h2
      show (f x ++ ' ' :: joinSp (f y :: List.map f ys)).length ≤
        (x ++ ' ' :: joinSp (y :: ys)).length
      simp only [List.length_append, List.length_cons]
      omega

/-- Tokens of the model word tokenizer use only input characters. -/
theorem wordTokenizeM_chars : ∀ (l : List Char), ∀ w ∈ wordTokenizeM l,
    ∀ c ∈ w, c ∈ l := by
  intro l
  induction l using wordTokenizeM.induct with
  | case1 =>
    intro w hw
    rw [wordTokenizeM] at hw
    cases hw
  | case2 c cs hc ih =>
    intro w hw x hx
    rw [wordTokenizeM] at hw
    rw [if_pos hc] at hw
    exact List.mem_cons_of_mem c (ih w hw x hx)
  | case3 c cs hc ha ih =>
    intro w hw x hx
    rw [wordTokenizeM] at hw
    rw [if_neg hc, if_pos ha] at hw
    rcases List.mem_cons.mp hw with rfl | hw2
    · rcases List.mem_cons.mp hx with rfl | hx2
      · exact List.mem_cons_self _ _
      · exact List.mem_cons_of_mem c ((List.takeWhile_sublist _).subset hx2)
    · exact List.mem_cons_of_mem c
        ((List.dropWhile_sublist _).subset (ih w hw2 x hx))
  | case4 c cs hc ha ih =>
    intro w hw x hx
    rw [wordTokenizeM] at hw
    rw [if_neg hc, if_neg ha] at hw
    rcases List.mem_cons.mp hw with rfl | hw2
    · rcases List.mem_cons.mp hx with rfl | hx2
      · exact List.mem_cons_self _ _
      · cases hx2
    · exact List.mem_cons_of_mem c (ih w hw2 x hx)

/-- Tokens of the model word tokenizer contain no whitespace. -/
theorem wordTokenizeM_noWs : ∀ (l : List Char), ∀ w ∈ wordTokenizeM l,
    ∀ c ∈ w, pyIsSpace c = false := by
  intro l
  induction l using wordTokenizeM.induct with
  | case1 =>
    intro w hw
    rw [wordTokenizeM] at hw
    cases hw
  | case2 c cs hc ih =>
    intro w hw x hx
    rw [wordTokenizeM] at hw
    rw [if_pos hc] at hw
    exact ih w hw x hx
  | case3 c cs hc ha ih =>
    intro w hw x hx
    rw [wordTokenizeM] at hw
    rw [if_neg hc, if_pos ha] at hw
    rcases List.mem_cons.mp hw with rfl | hw2
    · rcases List.mem_cons.mp hx with rfl | hx2
      · exact alnum_not_space x ha
      · exact alnum_not_space x (List.mem_takeWhile_imp hx2)
    · exact ih w hw2 x hx
  | case4 c cs hc ha ih =>
    intro w hw x hx
    rw [wordTokenizeM] at hw
    rw [if_neg hc, if_neg ha] at hw
    rcases List.mem_cons.mp hw with rfl | hw2
    · rcases List.mem_cons.mp hx with rfl | hx2
      · simpa using hc
      · cases hx2
    · exact ih w hw2 x hx

/-- Sentences of the model sentence splitter use only accumulator or input
characters. -/
theorem splitSentAux_chars : ∀ (acc l : List Char), ∀ s ∈ splitSentAux acc l,
    ∀ c ∈ s, c ∈ acc ∨ c ∈ l := by
  intro acc l
  induction acc, l using splitSentAux.induct with
  | case1 acc hemp =>
    intro s hs
    rw [splitSentAux] at hs
    rw [if_pos hemp] at hs
    cases hs
  | case2 acc hemp =>
    intro s hs c hc
    rw [splitSentAux] at hs
    rw [if_neg hemp] at hs
    rcases List.mem_cons.mp hs with rfl | h2
    · exact Or.inl (List.mem_reverse.mp hc)
    · cases h2
  | case3 acc c0 cs hcond ih =>
    intro s hs c hc
    rw [splitSentAux] at hs
    rw [if_pos hcond] at hs
    rcases List.mem_cons.mp hs with rfl | h2
    · rcases List.mem_append.mp hc with h3 | h3
      · exact Or.inl (List.mem_reverse.mp h3)
      · simp only [List.mem_singleton] at h3
        exact Or.inr (h3 ▸ List.mem_cons_self _ _)
    · rcases ih s h2 c hc with h3 | h3
      · cases h3
      · exact Or.inr (List.mem_cons_of_mem c0 ((List.dropWhile_sublist _).subset h3))
  | case4 acc c0 cs hcond ih =>
    intro s hs c hc
    rw [splitSentAux] at hs
    rw [if_neg hcond] at hs
    rcases ih s hs c hc with h3 | h3
    · rcases List.mem_cons.mp h3 with rfl | h4
      · exact Or.inr (List.mem_cons_self _ _)
      · exact Or.inl h4
    · exact Or.inr (List.mem_cons_of_mem c0 h3)

/-- Sentences of the model sentence tokenizer use only input characters. -/
theorem sentTokenizeM_chars (t : List Char) : ∀ s ∈ sentTokenizeM t,
    ∀ c ∈ s, c ∈ t := by
  intro s hs c hc
  rcases splitSentAux_chars [] _ s hs c hc with h | h
  · cases h
  · exact (List.dropWhile_sublist _).subset h

/-- The first minimum-length candidate is a member of the candidate list. -/
theorem minByLen_mem : ∀ (l : List (List Char)) (x : List Char),
    minByLen l = some x → x ∈ l := by
  intro l x h
  match l, h with
  | y :: ys, h =>
    simp only [minByLen, Option.some.injEq] at h
    subst h
    have : ∀ (zs : List (List Char)) (acc : List Char),
        zs.foldl (fun acc y => if y.length < acc.length then y else acc) acc ∈ acc :: zs := by
      intro zs
      induction zs with
      | nil => intro acc; simp
      | cons z zs ih =>
        intro acc
        simp only [List.foldl_cons]
        rcases List.mem_cons.mp (ih (if z.length < acc.length then z else acc)) with h2 | h2
        · rw [h2]
          split
          · simp
          · simp
        · simp [h2]
    exact this ys y

/-! ## Whitespace-shape invariants of the simplifier -/

/-- Whether the text avoids two consecutive spaces. -/
def noDoubleSpaceB : List Char → Bool
  | a :: b :: t => !(a == ' ' && b == ' ') && noDoubleSpaceB (b :: t)
  | _ => true

/-- Dropping the head preserves the double-space check. -/
theorem noDoubleSpaceB_tail (a : Char) (l : List Char)
    (h : noDoubleSpaceB (a :: l) = true) : noDoubleSpaceB l = true := by
  cases l with
  | nil => rfl
  | cons b t =>
    rw [noDoubleSpaceB] at h
    exact (Bool.and_eq_true .. |>.mp h).2

/-- Suffixes inherit the double-space check. -/
theorem noDoubleSpaceB_suffix (x l : List Char) (hs : x <:+ l)
    (h : noDoubleSpaceB l = true) : noDoubleSpaceB x = true := by
  obtain ⟨u, rfl⟩ := hs
  revert h
  induction u with
  | nil => intro h; simpa using h
  | cons a u ih =>
    intro h
    exact ih (noDoubleSpaceB_tail a (u ++ x) (by simpa using h))

/-- Prefixes inherit the double-space check. -/
theorem noDoubleSpaceB_append_left : ∀ (x y : List Char),
    noDoubleSpaceB (x ++ y) = true → noDoubleSpaceB x = true := by
  intro x
  induction x with
  | nil => intro y _; rfl
  | cons a u ih =>
    intro y h
    cases u with
    | nil => rfl
    | cons b t =>
      rw [noDoubleSpaceB]
      simp only [List.cons_append] at h
      rw [noDoubleSpaceB] at h
      rcases Bool.and_eq_true .. |>.mp h with ⟨h1, h2⟩
      rw [h1, ih y h2]
      rfl

/-- Prepending a character that cannot pair into a double space. -/
theorem noDoubleSpaceB_cons (a : Char) (l : List Char)
    (hp : ∀ b, l.head? = some b → ¬(a = ' ' ∧ b = ' '))
    (h : noDoubleSpaceB l = true) : noDoubleSpaceB (a :: l) = true := by
  cases l with
  | nil => rfl
  | cons b t =>
    rw [noDoubleSpaceB, h]
    have := hp b rfl
    have hab : (a == ' ' && b == ' ') = false := by
      cases ha : a == ' ' <;> cases hb : b == ' ' <;> simp_all
    rw [hab]
    rfl

/-- Dropping the length of the leading satisfying run is exactly dropWhile. -/
theorem drop_length_takeWhile (p : Char → Bool) (l : List Char) :
    l.drop (l.takeWhile p).length = l.dropWhile p := by
  obtain ⟨n, hn⟩ : ∃ n, (l.takeWhile p).length = n := ⟨_, rfl⟩
  rw [hn]
  conv_lhs => rw [← List.takeWhile_append_dropWhile p l]
  rw [← hn, List.drop_left]

/-- The whitespace collapser leaves non-whitespace heads in place. -/
theorem collapseWs_cons_of_nonWs (c : Char) (cs : List Char)
    (h : pyIsSpace c = false) :
    scanSt mWsRun updU () (c :: cs) = c :: scanSt mWsRun updU () cs := by
  have hm : mWsRun () (c :: cs) = none := by
    unfold mWsRun
    simp [h]
  rw [scanSt, hm]

/-- The whitespace-run matcher components on a whitespace head. -/
theorem mWsRun_eval (c : Char) (cs : List Char) (h : pyIsSpace c = true) :
    mWsRun () (c :: cs) =
      some ([' '], ((c :: cs).takeWhile pyIsSpace).length - 1, ()) := by
  unfold mWsRun
  simp [h]

/-- Output of the whitespace collapser: every whitespace character is a
space and no two spaces are adjacent. -/
theorem collapseWs_shape : ∀ (l : List Char),
    (∀ c ∈ scanSt mWsRun updU () l, pyIsSpace c = true → c = ' ') ∧
      noDoubleSpaceB (scanSt mWsRun updU () l) = true := by
  intro l
  induction () , l using scanSt.induct mWsRun updU with
  | case1 s => refine ⟨?_, ?_⟩ <;> simp [scanSt, noDoubleSpaceB]
  | case2 s c cs rep k s2 hfire ih =>
    have hz : s = () := rfl
    subst hz
    have hs2 : s2 = () := rfl
    subst hs2
    have hcw : pyIsSpace c = true := by
      by_contra hcc
      have hm : mWsRun () (c :: cs) = none := by
        unfold mWsRun
        simp [Bool.eq_false_iff.mpr hcc]
      rw [hm] at hfire
      cases hfire
    have hcomp := (mWsRun_eval c cs hcw).symm.trans hfire
    simp only [Option.some.injEq, Prod.mk.injEq] at hcomp
    obtain ⟨hrep, hk, -⟩ := hcomp
    subst hrep
    have hdrop : cs.drop k = (c :: cs).dropWhile pyIsSpace := by
      have h1 : ((c :: cs).takeWhile pyIsSpace).length = k + 1 := by
        rw [List.takeWhile_cons_of_pos hcw] at hk ⊢
        simp only [List.length_cons] at hk ⊢
        omega
      have h2 := drop_length_takeWhile pyIsSpace (c :: cs)
      rw [h1] at h2
      simpa using h2
    have heq : scanSt mWsRun updU () (c :: cs) =
        ' ' :: scanSt mWsRun updU () ((c :: cs).dropWhile pyIsSpace) := by
      rw [← hdrop]
      rw [scanSt, hfire]
      rfl
    rw [hdrop] at ih
    rw [heq]
    constructor
    · intro x hx _
      rcases List.mem_cons.mp hx with rfl | hx2
      · rfl
      · exact ih.1 x hx2 (by assumption)
    · apply noDoubleSpaceB_cons
      · intro b hb hcontra
        rcases dropWhile_shape pyIsSpace (c :: cs) with hsh | ⟨d, ds, hsh, hdw⟩
        · rw [hsh] at hb; simp [scanSt] at hb
        · rw [hsh] at hb
          rw [collapseWs_cons_of_nonWs d ds hdw] at hb
          simp only [List.head?_cons, Option.some.injEq] at hb
          subst hb
          rw [hcontra.2] at hdw
          simp [pyIsSpace] at hdw
      · exact ih.2
  | case3 s c cs hfire ih =>
    have hz : s = () := rfl
    subst hz
    have hcw : pyIsSpace c = false := by
      by_contra hcc
      rw [mWsRun_eval c cs (by simpa using hcc)] at hfire
      cases hfire
    rw [collapseWs_cons_of_nonWs c cs hcw]
    constructor
    · intro x hx hxw
      rcases List.mem_cons.mp hx with rfl | hx2
      · rw [hcw] at hxw; cases hxw
      · exact ih.1 x hx2 hxw
    · apply noDoubleSpaceB_cons
      · intro b hb hcontra
        rw [hcontra.1] at hcw
        simp [pyIsSpace] at hcw
      · exact ih.2

/-- Head reduction of the punctuation-space matcher. -/
theorem mWsPunct_head (s : Unit) (c : Char) (cs : List Char) : mWsPunct s (c :: cs) =
    if pyIsSpace c = true then
      (match (c :: cs).dropWhile pyIsSpace with
       | p :: _ => if p = '.' ∨ p = ',' ∨ p = '!' ∨ p = '?' then
           some ([p], ((c :: cs).takeWhile pyIsSpace).length, ()) else none
       | [] => none)
    else none := rfl

/-- Components of a successful punctuation-space match. -/
theorem mWsPunct_eval2 (s : Unit) (c : Char) (cs : List Char) (rep : List Char)
    (k : Nat) (s2 : Unit) (h : mWsPunct s (c :: cs) = some (rep, k, s2)) :
    pyIsSpace c = true ∧ ∃ p rest, (c :: cs).dropWhile pyIsSpace = p :: rest ∧
      (p = '.' ∨ p = ',' ∨ p = '!' ∨ p = '?') ∧ rep = [p] ∧
      k = ((c :: cs).takeWhile pyIsSpace).length := by
  rw [mWsPunct_head] at h
  split at h
  next hws =>
    split at h
    next p rest hdrop =>
      split at h
      next hp =>
        simp only [Option.some.injEq, Prod.mk.injEq] at h
        exact ⟨hws, p, rest, hdrop, hp, h.1.symm, h.2.1.symm⟩
      next => cases h
    next => cases h
  next => cases h

/-- The punctuation-space matcher fails on a non-whitespace head. -/
theorem mWsPunct_none_nonWs (s : Unit) (c : Char) (cs : List Char)
    (h : pyIsSpace c = false) : mWsPunct s (c :: cs) = none := by
  rw [mWsPunct_head]
  rw [if_neg (by simp [h])]

/-- The punctuation-space fixer leaves non-whitespace heads in place. -/
theorem fixPunct_cons_of_nonWs (c : Char) (cs : List Char)
    (h : pyIsSpace c = false) :
    scanSt mWsPunct updU () (c :: cs) = c :: scanSt mWsPunct updU () cs := by
  rw [scanSt, mWsPunct_none_nonWs () c cs h]

/-- Clause punctuation is not whitespace. -/
theorem punct_not_space (p : Char) (hp : p = '.' ∨ p = ',' ∨ p = '!' ∨ p = '?') :
    pyIsSpace p = false := by
  rcases hp with rfl | rfl | rfl | rfl <;> rfl

/-- The punctuation-space fixer preserves the whitespace shape. -/
theorem fixPunct_shape : ∀ (l : List Char),
    (∀ c ∈ l, pyIsSpace c = true → c = ' ') → noDoubleSpaceB l = true →
    (∀ c ∈ scanSt mWsPunct updU () l, pyIsSpace c = true → c = ' ') ∧
      noDoubleSpaceB (scanSt mWsPunct updU () l) = true := by
  intro l
  induction () , l using scanSt.induct mWsPunct updU with
  | case1 s => intro _ _; refine ⟨?_, ?_⟩ <;> simp [scanSt, noDoubleSpaceB]
  | case2 s c cs rep k s2 hfire ih =>
    intro hmem hnd
    have hz : s = () := rfl
    subst hz
    have hs2 : s2 = () := rfl
    subst hs2
    obtain ⟨hcw, p, rest, hdrop, hp, hrep, hk⟩ := mWsPunct_eval2 () c cs rep k () hfire
    subst hrep
    have hsplit : (c :: cs).takeWhile pyIsSpace ++ (p :: rest) = c :: cs := by
      rw [← hdrop]
      exact List.takeWhile_append_dropWhile pyIsSpace (c :: cs)
    obtain ⟨tw, htw⟩ : ∃ tw, (c :: cs).takeWhile pyIsSpace = tw := ⟨_, rfl⟩
    rw [htw] at hsplit hk
    have hdropk : cs.drop k = rest := by
      have h0 : cs.drop k = (c :: cs).drop (k + 1) := rfl
      rw [h0, hk]
      conv_lhs => rw [← hsplit]
      rw [List.drop_append]
      rfl
    have hrest : rest <:+ c :: cs := by
      refine ⟨tw ++ [p], ?_⟩
      rw [← hsplit]
      simp
    have hmemr : ∀ x ∈ rest, pyIsSpace x = true → x = ' ' :=
      fun x hx => hmem x (hrest.subset hx)
    have hndr : noDoubleSpaceB rest = true := noDoubleSpaceB_suffix rest _ hrest hnd
    have heq : scanSt mWsPunct updU () (c :: cs) =
        p :: scanSt mWsPunct updU () rest := by
      rw [← hdropk]
      rw [scanSt, hfire]
      rfl
    rw [hdropk] at ih
    rw [heq]
    have ihr := ih hmemr hndr
    constructor
    · intro x hx hxw
      rcases List.mem_cons.mp hx with rfl | hx2
      · rw [punct_not_space x hp] at hxw; cases hxw
      · exact ihr.1 x hx2 hxw
    · apply noDoubleSpaceB_cons
      · intro b hb hcontra
        have := punct_not_space p hp
        rw [hcontra.1] at this
        simp [pyIsSpace] at this
      · exact ihr.2
  | case3 s c cs hfire ih =>
    intro hmem hnd
    have hz : s = () := rfl
    subst hz
    have hmemc : ∀ x ∈ cs, pyIsSpace x = true → x = ' ' :=
      fun x hx => hmem x (List.mem_cons_of_mem c hx)
    have hndc : noDoubleSpaceB cs = true := noDoubleSpaceB_tail c cs hnd
    have ihr := ih hmemc hndc
    have heq : scanSt mWsPunct updU () (c :: cs) =
        c :: scanSt mWsPunct updU () cs := by
      rw [scanSt, hfire]
    rw [heq]
    constructor
    · intro x hx hxw
      rcases List.mem_cons.mp hx with rfl | hx2
      · exact hmem x (List.mem_cons_self _ _) hxw
      · exact ihr.1 x hx2 hxw
    · apply noDoubleSpaceB_cons
      · intro b hb hcontra
        obtain ⟨rfl, hb2⟩ := hcontra
        cases cs with
        | nil => simp [scanSt] at hb
        | cons d ds =>
          have hd : pyIsSpace d = false ∨ d = ' ' := by
            cases hdw : pyIsSpace d with
            | false => exact Or.inl rfl
            | true => exact Or.inr (hmem d (by simp) hdw)
          have hdne : d ≠ ' ' := by
            rw [noDoubleSpaceB] at hnd
            rcases Bool.and_eq_true .. |>.mp hnd with ⟨h1, -⟩
            intro hde
            rw [hde] at h1
            simp at h1
          rcases hd with hdw | hde
          · rw [fixPunct_cons_of_nonWs d ds hdw] at hb
            simp only [List.head?_cons, Option.some.injEq] at hb
            exact hdne (hb ▸ hb2)
          · exact hdne hde
      · exact ihr.2

/-- Whitespace trimming preserves the whitespace shape. -/
theorem pyStrip_shape (l : List Char)
    (h1 : ∀ c ∈ l, pyIsSpace c = true → c = ' ')
    (h2 : noDoubleSpaceB l = true) :
    (∀ c ∈ pyStrip l, pyIsSpace c = true → c = ' ') ∧
      noDoubleSpaceB (pyStrip l) = true := by
  constructor
  · intro c hc
    exact h1 c ((pyStrip_sublist l).subset hc)
  · obtain ⟨u, v, -, -, hdec⟩ := pyStrip_decomp l
    have hsuf : pyStrip l ++ v <:+ l := ⟨u, hdec.symm⟩
    exact noDoubleSpaceB_append_left _ v (noDoubleSpaceB_suffix _ l hsuf h2)

/-! ## Stage-level helper facts -/

/-- Filtered sentences only contain original tokens. -/
theorem filterSentence_subset : ∀ (ws : List (List Char)),
    ∀ w ∈ filterSentence ws, w ∈ ws := by
  intro ws w hw
  cases ws with
  | nil => cases hw
  | cons x rest =>
    rw [filterSentence] at hw
    rcases List.mem_cons.mp hw with rfl | hw2
    · exact List.mem_cons_self _ _
    · exact List.mem_cons_of_mem x (List.mem_filter.mp hw2).1

/-- Characters of the stopword stage output, over the model tokenizers, come
from the input or are joining spaces. -/
theorem remove_stopwords_chars (t : List Char) :
    ∀ c ∈ remove_stopwords sentTokenizeM wordTokenizeM t, c ∈ t ∨ c = ' ' := by
  intro c hc
  unfold remove_stopwords at hc
  rcases joinSp_mem _ c hc with h | ⟨x, hx, hcx⟩
  · exact Or.inr h
  · obtain ⟨m, hm, rfl⟩ := List.mem_map.mp hx
    have hm2 := (List.mem_filter.mp hm).1
    obtain ⟨sen, hsen, rfl⟩ := List.mem_map.mp hm2
    rcases joinSp_mem _ c hcx with h | ⟨w, hw, hcw⟩
    · exact Or.inr h
    · have hw2 := filterSentence_subset _ w hw
      have hcs := wordTokenizeM_chars sen w hw2 c hcw
      exact Or.inl (sentTokenizeM_chars t sen hsen c hcs)

/-- Every whitespace character in the stopword stage output, over the model
tokenizers, is a plain space. -/
theorem remove_stopwords_noWs (t : List Char) :
    ∀ c ∈ remove_stopwords sentTokenizeM wordTokenizeM t,
      pyIsSpace c = true → c = ' ' := by
  intro c hc hw
  unfold remove_stopwords at hc
  rcases joinSp_mem _ c hc with h | ⟨x, hx, hcx⟩
  · exact h
  · obtain ⟨m, hm, rfl⟩ := List.mem_map.mp hx
    have hm2 := (List.mem_filter.mp hm).1
    obtain ⟨sen, hsen, rfl⟩ := List.mem_map.mp hm2
    rcases joinSp_mem _ c hcx with h | ⟨w, hw2, hcw⟩
    · exact h
    · have hw3 := filterSentence_subset _ w hw2
      have := wordTokenizeM_noWs sen w hw3 c hcw
      rw [hw] at this
      cases this

/-- Characters of the synonym stage output, over the model word tokenizer,
come from the input, are joining spaces, or stem from a lookup candidate of
an input token. -/
theorem replace_synonyms_chars (wn : List Char → List (List (List Char)))
    (t : List Char) : ∀ c ∈ replace_synonyms wordTokenizeM wn t,
      c = ' ' ∨ c ∈ t ∨ ∃ w, w ∈ wordTokenizeM t ∧ ∃ g, (wn w).head? = some g ∧
        ∃ n, n ∈ g ∧ c ∈ underscoreToSpace n := by
  intro c hc
  unfold replace_synonyms at hc
  rcases joinSp_mem _ c hc with h | ⟨x, hx, hcx⟩
  · exact Or.inl h
  · obtain ⟨w, hw, rfl⟩ := List.mem_map.mp hx
    unfold replaceWord at hcx
    split at hcx
    · exact Or.inr (Or.inl (wordTokenizeM_chars t w hw c hcx))
    · split at hcx
      next => exact Or.inr (Or.inl (wordTokenizeM_chars t w hw c hcx))
      next g gs hg =>
        split at hcx
        next => exact Or.inr (Or.inl (wordTokenizeM_chars t w hw c hcx))
        next shortest hmin =>
          split at hcx
          · have hsm := minByLen_mem _ _ hmin
            obtain ⟨n, hn, rfl⟩ := List.mem_map.mp hsm
            refine Or.inr (Or.inr ⟨w, hw, g, ?_, n, (List.mem_filter.mp hn).1, hcx⟩)
            rw [hg]
            rfl
          · exact Or.inr (Or.inl (wordTokenizeM_chars t w hw c hcx))

/-- The syntax stripper maps the empty text to the empty text. -/
theorem strip_empty : strip_markdown_syntax [] = [] := by
  unfold strip_markdown_syntax
  simp [scanSt, pyStrip]

/-- The stopword stage, over the model tokenizers, maps the empty text to
the empty text. -/
theorem remove_stopwords_empty :
    remove_stopwords sentTokenizeM wordTokenizeM [] = [] := by
  unfold remove_stopwords sentTokenizeM
  rw [show ([] : List Char).dropWhile pyIsSpace = [] from rfl]
  rw [splitSentAux]
  simp [joinSp]

/-- The simplifier maps the empty text to the empty text. -/
theorem simplify_empty : simplify_sentences [] = [] := by
  unfold simplify_sentences subFiller
  simp [scanSt, pyStrip]

/-- The synonym stage, over the model word tokenizer, maps the empty text to
the empty text for any lookup. -/
theorem replace_synonyms_empty (wn : List Char → List (List (List Char))) :
    replace_synonyms wordTokenizeM wn [] = [] := by
  unfold replace_synonyms
  rw [wordTokenizeM]
  rfl

/-- Per-word synonym replacement returns the word or something strictly
shorter. -/
theorem replaceWord_shrink (wn : List Char → List (List (List Char)))
    (w : List Char) : replaceWord wn w = w ∨ (replaceWord wn w).length < w.length := by
  unfold replaceWord
  split
  · exact Or.inl rfl
  · split
    next => exact Or.inl rfl
    next g gs hg =>
      split
      next => exact Or.inl rfl
      next shortest hmin =>
        split
        next hlt => exact Or.inr hlt
        next => exact Or.inl rfl

/-- A single-strategy request with the syntax tag runs only the stripper. -/
theorem minify_only_tag_syn (st wt : List Char → List (List Char))
    (wn : List Char → List (List (List Char))) (t : List Char) :
    minify st wt wn t ["syntax"] = strip_markdown_syntax t := rfl

/-- A single-strategy request with the simplify tag runs only the
simplifier. -/
theorem minify_single_simplify (st wt : List Char → List (List Char))
    (wn : List Char → List (List (List Char))) (t : List Char) :
    minify st wt wn t ["simplify"] = simplify_sentences t := rfl

/-! ## The claims -/

/-- C1 (amended part): for every input text, minifying with only the syntax
strategy or with only the simplify strategy never increases the character
length of the text. -/
theorem minify_syntax_simplify_length_le :
    ∀ (st wt : List Char → List (List Char))
      (wn : List Char → List (List (List Char))) (t : List Char),
      (minify st wt wn t ["syntax"]).length ≤ t.length ∧
      (minify st wt wn t ["simplify"]).length ≤ t.length := by
  intro st wt wn t
  rw [minify_only_tag_syn, minify_single_simplify]
  exact ⟨strip_length_le t, simplify_length_le t⟩

set_option maxRecDepth 8000 in
/-- C1 (counterexample): minifying the three-character text a comma b with
only the stopwords strategy yields a five-character text, because word
tokenization separates the comma into its own token and tokens are rejoined
with single spaces; so the stopwords stage alone can increase length. -/
theorem minify_stopwords_length_counterexample :
    ¬ ((minify sentTokenizeM wordTokenizeM (fun _ => [])
        ('a' :: ',' :: 'b' :: []) ["stopwords"]).length ≤
      ('a' :: ',' :: 'b' :: []).length) := by
  have h : minify sentTokenizeM wordTokenizeM (fun _ => [])
      ('a' :: ',' :: 'b' :: []) ["stopwords"] =
      'a' :: ' ' :: ',' :: ' ' :: 'b' :: [] := by
    have h1 : (["stopwords"] : List String).contains "syntax" = false := by decide
    have h2 : (["stopwords"] : List String).contains "stopwords" = true := by decide
    have h3 : (["stopwords"] : List String).contains "simplify" = false := by decide
    have h4 : (["stopwords"] : List String).contains "synonyms" = false := by decide
    unfold minify
    rw [h1, h2, h3, h4]
    simp only [if_false, if_true, Bool.false_eq_true, reduceIte]
    simp [remove_stopwords, sentTokenizeM, splitSentAux, wordTokenizeM, joinSp,
      filterSentence, keepWord, isStopword, isAlnumStr, lowerStr, stopwordsSet,
      nltkStopwordsPlain, nltkStopwordsApos, addedFillerWords, wApos, apos,
      pyIsSpace, pyIsAlnum]
  rw [h]
  decide

/-- C2: the pipeline output depends on the requested strategy list only
through membership of the four known tags, so duplicates, order and unknown
tags are irrelevant; and the selected stages apply in the fixed canonical
order syntax, stopwords, simplify, synonyms, skipped stages leaving the text
untouched. -/
theorem minify_strategy_set_canonical :
    (∀ (st wt : List Char → List (List Char))
      (wn : List Char → List (List (List Char))) (t : List Char)
      (s1 s2 : List String),
      s1.contains "syntax" = s2.contains "syntax" →
      s1.contains "stopwords" = s2.contains "stopwords" →
      s1.contains "simplify" = s2.contains "simplify" →
      s1.contains "synonyms" = s2.contains "synonyms" →
      minify st wt wn t s1 = minify st wt wn t s2) ∧
    (∀ (st wt : List Char → List (List Char))
      (wn : List Char → List (List (List Char))) (t : List Char)
      (s : List String),
      minify st wt wn t s =
        applyIf (s.contains "synonyms") ( replace_synonyms wt wn)
          (applyIf (s.contains "simplify") simplify_sentences
            (applyIf (s.contains "stopwords") ( remove_stopwords st wt)
              (applyIf (s.contains "syntax") strip_markdown_syntax t)))) := by
  constructor
  · intro st wt wn t s1 s2 h1 h2 h3 h4
    unfold minify
    rw [h1, h2, h3, h4]
  · intro st wt wn t s
    rfl

/-- Witness for C2 at a concrete text and two concrete strategy lists that
agree on tag membership but differ in order, duplication and an unknown
tag. -/
theorem minify_strategy_set_canonical_witness :
    minify sentTokenizeM wordTokenizeM (fun _ => []) ('h' :: [])
        ["synonyms", "syntax", "zzz", "syntax"] =
      minify sentTokenizeM wordTokenizeM (fun _ => []) ('h' :: [])
        ["syntax", "synonyms"] :=
  minify_strategy_set_canonical.1 sentTokenizeM wordTokenizeM (fun _ => [])
    ('h' :: []) ["synonyms", "syntax", "zzz", "syntax"] ["syntax", "synonyms"]
    (by decide) (by decide) (by decide) (by decide)

/-- C3: the stopword stage joins per-sentence filtered token lists; within
each tokenized sentence the first token is always retained verbatim, a later
token is dropped exactly when its case-folded form is in the stopword
vocabulary and it is purely alphanumeric, and non-alphanumeric tokens are
always retained. -/
theorem remove_stopwords_spec :
    (∀ (st wt : List Char → List (List Char)) (t : List Char),
      remove_stopwords st wt t =
        joinSp ((((st t).map (fun s => filterSentence (wt s))).filter
          (fun l => !l.isEmpty)).map joinSp)) ∧
    (∀ (w : List Char) (rest : List (List Char)),
      (filterSentence (w :: rest)).head? = some w) ∧
    (∀ (w x : List Char) (rest : List (List Char)), x ∈ rest →
      (x ∈ (filterSentence (w :: rest)).drop 1 ↔
        ¬(isStopword x = true ∧ isAlnumStr x = true))) ∧
    (∀ (w x : List Char) (rest : List (List Char)), x ∈ rest →
      isAlnumStr x = false → x ∈ filterSentence (w :: rest)) := by
  refine ⟨fun st wt t => rfl, fun w rest => rfl, ?_, ?_⟩
  · intro w x rest hx
    rw [filterSentence]
    simp only [List.drop_succ_cons, List.drop_zero]
    constructor
    · intro hmem
      have hk := (List.mem_filter.mp hmem).2
      unfold keepWord at hk
      simp only [Bool.or_eq_true, Bool.not_eq_true'] at hk
      rintro ⟨hs, ha⟩
      rcases hk with h | h
      · rw [hs] at h; cases h
      · rw [ha] at h; cases h
    · intro hna
      apply List.mem_filter.mpr
      refine ⟨hx, ?_⟩
      unfold keepWord
      simp only [Bool.or_eq_true, Bool.not_eq_true']
      by_cases hs : isStopword x = true
      · cases ha : isAlnumStr x with
        | false => exact Or.inr rfl
        | true => exact absurd ⟨hs, ha⟩ hna
      · exact Or.inl (Bool.not_eq_true (isStopword x) ▸ Bool.eq_false_iff.mpr hs)
  · intro w x rest hx hna
    rw [filterSentence]
    refine List.mem_cons_of_mem w (List.mem_filter.mpr ⟨hx, ?_⟩)
    unfold keepWord
    rw [hna]
    simp

/-- Witness for C3: in the tokenized sentence The cat on, the later token on
is dropped because it is an alphanumeric stopword. -/
theorem remove_stopwords_spec_witness :
    ("on").toList ∈ (filterSentence (("The").toList ::
        [("cat").toList, ("on").toList, (".").toList])).drop 1 ↔
      ¬(isStopword ("on").toList = true ∧ isAlnumStr ("on").toList = true) :=
  remove_stopwords_spec.2.2.1 ("The").toList ("on").toList
    [("cat").toList, ("on").toList, (".").toList] (by decide)

/-- C4: minifying with the empty strategy list returns the text unchanged. -/
theorem minify_empty_strategies :
    ∀ (st wt : List Char → List (List Char))
      (wn : List Char → List (List (List Char))) (t : List Char),
      minify st wt wn t [] = t := by
  intro st wt wn t
  rfl

/-- C5: the synonym stage maps each token independently, and a token whose
case-folded form is a preserved technical term always passes through
unchanged, whatever the lookup offers. -/
theorem preserve_terms_never_replaced :
    (∀ (wt : List Char → List (List Char))
      (wn : List Char → List (List (List Char))) (t : List Char),
      replace_synonyms wt wn t = joinSp ((wt t).map (replaceWord wn))) ∧
    (∀ (wn : List Char → List (List (List Char))) (w : List Char),
      isPreserved w = true → replaceWord wn w = w) := by
  refine ⟨fun wt wn t => rfl, ?_⟩
  intro wn w h
  unfold replaceWord
  rw [if_pos (by simp [h])]

/-- Witness for C5: the preserved term python is not replaced even when the
lookup offers the strictly shorter candidate py. -/
theorem preserve_terms_never_replaced_witness :
    replaceWord (fun _ => [[('p' :: 'y' :: [])]]) ("Python").toList =
      ("Python").toList :=
  preserve_terms_never_replaced.2 (fun _ => [[('p' :: 'y' :: [])]])
    ("Python").toList (by decide)

/-- C6: every stage is a total function in this embedding, and each stage,
as well as the whole pipeline under any strategy list, maps the empty text
to the empty text. -/
theorem stages_total_and_empty :
    strip_markdown_syntax [] = [] ∧
    remove_stopwords sentTokenizeM wordTokenizeM [] = [] ∧
    simplify_sentences [] = [] ∧
    (∀ wn, replace_synonyms wordTokenizeM wn [] = []) ∧
    (∀ wn s, minify sentTokenizeM wordTokenizeM wn [] s = []) := by
  refine ⟨strip_empty, remove_stopwords_empty, simplify_empty,
    replace_synonyms_empty, ?_⟩
  intro wn s
  unfold minify
  cases h1 : s.contains "syntax" <;> cases h2 : s.contains "stopwords" <;>
    cases h3 : s.contains "simplify" <;> cases h4 : s.contains "synonyms" <;>
      simp [h1, h2, h3, h4, strip_empty, remove_stopwords_empty, simplify_empty,
        replace_synonyms_empty]

/-- C7: on texts free of the targeted markdown markers the syntax stripper
is idempotent. -/
theorem strip_idempotent_marker_free : ∀ (t : List Char), markerFreeB t = true →
    strip_markdown_syntax ( strip_markdown_syntax t) = strip_markdown_syntax t := by
  intro t h
  rw [strip_eq_pyStrip t h, strip_eq_pyStrip (pyStrip t) (markerFree_pyStrip t h),
    pyStrip_idem]

/-- Witness for C7 at a concrete marker-free text with digits, periods and
newlines. -/
theorem strip_idempotent_marker_free_witness :
    strip_markdown_syntax
        ( strip_markdown_syntax ("Hello world.\n\nNumbers like 12 are fine.").toList) =
      strip_markdown_syntax ("Hello world.\n\nNumbers like 12 are fine.").toList :=
  strip_idempotent_marker_free _ (by decide)

/-- C8: the syntax stripper only deletes characters; the stopword and
simplify stages only produce input characters or single joining spaces, and
their whitespace output is flattened to plain spaces; the synonym stage only
produces input characters, joining spaces, or characters of a lookup
candidate for an input token. -/
theorem stages_character_provenance :
    (∀ t, strip_markdown_syntax t <+ t) ∧
    (∀ t, ∀ c ∈ remove_stopwords sentTokenizeM wordTokenizeM t, c ∈ t ∨ c = ' ') ∧
    (∀ t, ∀ c ∈ remove_stopwords sentTokenizeM wordTokenizeM t,
      pyIsSpace c = true → c = ' ') ∧
    (∀ t, ∀ c ∈ simplify_sentences t, c ∈ t ∨ c = ' ') ∧
    (∀ wn t, ∀ c ∈ replace_synonyms wordTokenizeM wn t,
      c = ' ' ∨ c ∈ t ∨ ∃ w, w ∈ wordTokenizeM t ∧ ∃ g, (wn w).head? = some g ∧
        ∃ n, n ∈ g ∧ c ∈ underscoreToSpace n) :=
  ⟨strip_sublist, remove_stopwords_chars, remove_stopwords_noWs, simplify_mem,
    replace_synonyms_chars⟩

/-- Witness for C8 at a concrete text and the empty lookup. -/
theorem stages_character_provenance_witness :
    'h' = ' ' ∨ 'h' ∈ ("hi").toList ∨
      ∃ w, w ∈ wordTokenizeM ("hi").toList ∧
        ∃ g, ((fun _ => ([] : List (List (List Char)))) w).head? = some g ∧
          ∃ n, n ∈ g ∧ 'h' ∈ underscoreToSpace n :=
  stages_character_provenance.2.2.2.2 (fun _ => []) ("hi").toList 'h' (by
    have h : replace_synonyms wordTokenizeM (fun _ => []) ("hi").toList =
        ("hi").toList := by
      simp [replace_synonyms, wordTokenizeM, replaceWord, joinSp, pyIsSpace,
        pyIsAlnum]
    rw [h]
    decide)

/-- C9: the synonym stage substitutes a token only by a strictly shorter
candidate, so tokenwise it never grows, and the whole stage output is no
longer than the space-joined token list itself. -/
theorem synonyms_only_shorter :
    (∀ (wn : List Char → List (List (List Char))) (w : List Char),
      replaceWord wn w = w ∨ (replaceWord wn w).length < w.length) ∧
    (∀ (wt : List Char → List (List Char))
      (wn : List Char → List (List (List Char))) (t : List Char),
      (replace_synonyms wt wn t).length ≤ (joinSp (wt t)).length) := by
  refine ⟨replaceWord_shrink, ?_⟩
  intro wt wn t
  unfold replace_synonyms
  apply joinSp_map_length_le
  intro x hx
  rcases replaceWord_shrink wn x with h | h
  · rw [h]
  · omega

/-- C10: the simplifier output contains no whitespace other than plain
spaces and never two consecutive spaces. -/
theorem simplify_whitespace_shape : ∀ (t : List Char),
    (∀ c ∈ simplify_sentences t, pyIsSpace c = true → c = ' ') ∧
      noDoubleSpaceB (simplify_sentences t) = true := by
  intro t
  unfold simplify_sentences
  have h1 := collapseWs_shape
    (subFiller fillerAlts3 (subFiller fillerAlts2 (subFiller fillerAlts1 t)))
  have h2 := fixPunct_shape _ h1.1 h1.2
  exact pyStrip_shape _ h2.1 h2.2

/-- Witness for C10 at a concrete text whose output retains a space. -/
theorem simplify_whitespace_shape_witness : ' ' = ' ' :=
  (simplify_whitespace_shape ("x y").toList).1 ' ' (by
    have h : simplify_sentences ("x y").toList = ('x' :: ' ' :: 'y' :: []) := by
      simp [simplify_sentences, subFiller, scanSt, mAlts, tryAlts, matchCI,
        fillerAlts1, fillerAlts2, fillerAlts3, mWsRun, mWsPunct, pyIsSpace,
        isWordChar, pyIsAlnum, updW, updU, pyStrip]
    rw [h]
    decide) (by decide)
